import Mathlib

/-!
Zip: a verification development for `proof_of_concept.cpp`.

A shallow embedding of the capability-rank engine (`tag_to_rank`, `rank_to_tag`,
`WeakestIteratorTag`), of the combined cursor (`ZipIterator`) and of the zip adapter
(`Zip`), followed by the properties proved about them.

Conventions of the embedding:
* a template that fails to instantiate (no viable overload) is `none`;
* an operation whose behaviour is undefined in C++ (advancing the past-the-end cursor,
  retreating the start cursor, dereferencing the past-the-end cursor, reading through a
  dangling reference) is `none`;
* a parameter pack `Ts...` is a `List`, in the order of the pack.
-/

namespace ZipPoc

/-! ## Capability-rank engine (source lines 14-34) -/

/-- The five standard iterator category tags. -/
inductive IteratorTag
  | input_iterator_tag
  | output_iterator_tag
  | forward_iterator_tag
  | bidirectional_iterator_tag
  | random_access_iterator_tag
  deriving DecidableEq, Repr, Fintype

open IteratorTag

/-- The overload set `tag_to_rank` (lines 14-18): the `boost::mpl::int_` each tag is sent to. -/
def tag_to_rank : IteratorTag → Nat
  | input_iterator_tag => 1
  | output_iterator_tag => 1
  | forward_iterator_tag => 1
  | bidirectional_iterator_tag => 2
  | random_access_iterator_tag => 3

/-- The overload set `rank_to_tag` (lines 20-22). Only `int_<1>`, `int_<2>` and `int_<3>`
have an overload; any other argument has no viable overload. -/
def rank_to_tag : Nat → Option IteratorTag
  | 1 => some forward_iterator_tag
  | 2 => some bidirectional_iterator_tag
  | 3 => some random_access_iterator_tag
  | _ => none

/-- The step of `boost::mpl::min_element`: it is `max_element` with the negated predicate
`not_<less<_,_>>`, whose fold keeps the old position unless `!(old < cur)`, in which case it
moves to the current one. -/
def select_min (old cur : Nat) : Nat :=
  if ¬ (old < cur) then cur else old

/-- The value at `boost::mpl::deref<boost::mpl::min_element<Seq>::type>`: an `iter_fold` over
the sequence starting at `begin<Seq>`. On the empty sequence the fold returns `end<Seq>`,
which cannot be dereferenced. -/
def min_element : List Nat → Option Nat
  | [] => none
  | r :: rs => some (rs.foldl select_min r)

/-- The member `WeakestIteratorTag<Tags...>::tag` (lines 24-34): the ranks of the tags
(`tag_ranks`), the least of them (`min_rank`), and the tag of that rank. -/
def WeakestIteratorTag (tags : List IteratorTag) : Option IteratorTag :=
  let tag_ranks := tags.map tag_to_rank
  let min_rank := min_element tag_ranks
  min_rank.bind rank_to_tag

/-- The relation the specification calls "supports": a tag `t` supports a capability `c`
when it is `c` itself or is of strictly higher rank. -/
def supports (t c : IteratorTag) : Prop :=
  t = c ∨ tag_to_rank t > tag_to_rank c

instance (t c : IteratorTag) : Decidable (supports t c) := by
  unfold supports; infer_instance

/-! ## Standard sequences and their cursors

The standard containers are external to the program; what the program uses of them is
modelled here: a sequence has elements and cursors of one declared category, and a cursor is
an offset into a sequence. -/

/-- The element values that occur in the source's tests and demos. -/
inductive Value
  | int (i : Int)
  | float (x : Rat)
  | bool (b : Bool)
  | string (s : String)
  deriving DecidableEq

/-- A sequence: the category of its cursors (the `iterator_category` of
`boost::range_iterator<C>::type`) and its elements in order. -/
structure Container (α : Type) where
  category : IteratorTag
  elems : List α

/-- A `std::vector`: its cursors are random-access. -/
def std_vector {α : Type} (elems : List α) : Container α :=
  ⟨random_access_iterator_tag, elems⟩

/-- A `std::list`: its cursors are bidirectional. -/
def std_list {α : Type} (elems : List α) : Container α :=
  ⟨bidirectional_iterator_tag, elems⟩

/-- A `std::forward_list`: its cursors are forward. -/
def std_forward_list {α : Type} (elems : List α) : Container α :=
  ⟨forward_iterator_tag, elems⟩

/-- A cursor into a sequence: its declared category, the sequence it points into and its
offset from the start; offset `seq.length` is the past-the-end position. -/
structure Cursor (α : Type) where
  category : IteratorTag
  seq : List α
  pos : Nat

/-- The call `std::begin(container)`. -/
def std_begin {α : Type} (c : Container α) : Cursor α :=
  ⟨c.category, c.elems, 0⟩

/-- The call `std::end(container)`. -/
def std_end {α : Type} (c : Container α) : Cursor α :=
  ⟨c.category, c.elems, c.elems.length⟩

/-- The expression `++it` on an underlying cursor; undefined on the past-the-end cursor. -/
def Cursor.increment {α : Type} (it : Cursor α) : Option (Cursor α) :=
  if it.pos < it.seq.length then some ⟨it.category, it.seq, it.pos + 1⟩ else none

/-- The expression `--it` on an underlying cursor; ill-formed below bidirectional, undefined
on the start cursor. -/
def Cursor.decrement {α : Type} (it : Cursor α) : Option (Cursor α) :=
  if 2 ≤ tag_to_rank it.category ∧ 0 < it.pos then
    some ⟨it.category, it.seq, it.pos - 1⟩
  else none

/-- The expression `*it` on an underlying cursor; undefined at or after the past-the-end
position. -/
def Cursor.dereference {α : Type} (it : Cursor α) : Option α :=
  it.seq[it.pos]?

/-- The expression `a == b` for two cursors into one sequence: they are at the same offset. -/
def Cursor.equal {α : Type} (a b : Cursor α) : Bool :=
  a.pos == b.pos

/-! ## Combined cursor (source lines 51-146) -/

/-- The call `std::apply` of a lambda that runs `f` on every member of the pack, in pack order, and
collects the results; it has a result only if every call has. -/
def apply_all {β γ : Type} (f : β → Option γ) : List β → Option (List γ)
  | [] => some []
  | x :: xs =>
    match f x with
    | none => none
    | some y =>
      match apply_all f xs with
      | none => none
      | some ys => some (y :: ys)

/-- The member `ZipIteratorTraits<Iterators...>::iterator_category` (lines 58-59): the
weakest of the categories of the underlying cursors. -/
def ZipIteratorTraits.iterator_category {α : Type} (iterators : List (Cursor α)) :
    Option IteratorTag :=
  WeakestIteratorTag (iterators.map Cursor.category)

/-- The class `ZipIterator<Iterators...>`: its only state is `iterator_tuple_`. -/
structure ZipIterator (α : Type) where
  iterator_tuple_ : List (Cursor α)

/-- The member `ZipIterator::iterator_category` (line 85). -/
def ZipIterator.iterator_category {α : Type} (it : ZipIterator α) : Option IteratorTag :=
  ZipIteratorTraits.iterator_category it.iterator_tuple_

/-- The constructor `ZipIterator(Iterators&&...)` (lines 87-90): the cursors are stored as
given. The class only instantiates when its traits do, that is, when
`ZipIteratorTraits<Iterators...>::iterator_category` names a tag. -/
def ZipIterator.construct {α : Type} (iterators : List (Cursor α)) : Option (ZipIterator α) :=
  if (ZipIteratorTraits.iterator_category iterators).isSome then some ⟨iterators⟩ else none

/-- The member `ZipIterator::increment` (lines 107-115): `(++it, ...)` over the tuple. -/
def ZipIterator.increment {α : Type} (it : ZipIterator α) : Option (ZipIterator α) :=
  (apply_all Cursor.increment it.iterator_tuple_).map ZipIterator.mk

/-- The member `ZipIterator::decrement` (lines 117-125): `(--it, ...)` over the tuple. -/
def ZipIterator.decrement {α : Type} (it : ZipIterator α) : Option (ZipIterator α) :=
  (apply_all Cursor.decrement it.iterator_tuple_).map ZipIterator.mk

/-- The `operator==` of `std::tuple`: the conjunction of the componentwise comparisons, left to
right. Tuples of different sizes are different types and do not compare. -/
def tuple_equal {α : Type} : List (Cursor α) → List (Cursor α) → Bool
  | [], [] => true
  | a :: as, b :: bs => a.equal b && tuple_equal as bs
  | _, _ => false

/-- The member `ZipIterator::equal` (lines 127-136): `iterator_tuple_ == rhs.iterator_tuple_`. -/
def ZipIterator.equal {α : Type} (it rhs : ZipIterator α) : Bool :=
  tuple_equal it.iterator_tuple_ rhs.iterator_tuple_

/-- The member `ZipIterator::dereference` (lines 138-146): `{*it...}` over the tuple. -/
def ZipIterator.dereference {α : Type} (it : ZipIterator α) : Option (List α) :=
  apply_all Cursor.dereference it.iterator_tuple_

/-- The result of `k` applications of `++it` to a combined cursor. -/
def ZipIterator.advance {α : Type} : Nat → ZipIterator α → Option (ZipIterator α)
  | 0, it => some it
  | k + 1, it =>
    match it.increment with
    | none => none
    | some next => ZipIterator.advance k next

/-! ## Zip adapter (source lines 148-205) -/

/-- A constructor argument of `Zip`: a transient sequence (rvalue) or a persistent one
(lvalue), the latter named by its address in the caller's store. -/
inductive Arg (α : Type)
  | rvalue (c : Container α)
  | lvalue (addr : Nat)

/-- One member of `container_tuple`: `Containers` is deduced as `T` for an rvalue argument
(the sequence is held by value) and as `T&` for an lvalue argument (a reference is held). -/
inductive Slot (α : Type)
  | owned (c : Container α)
  | borrowed (addr : Nat)

/-- The caller's persistent sequences, by address. -/
abbrev Store (α : Type) := List (Container α)

/-- The class `Zip<Containers...>`: its only state is `container_tuple_`. -/
structure Zip (α : Type) where
  container_tuple_ : List (Slot α)

/-- The member of the tuple an argument initialises: `std::forward<Containers>(containers)`
moves an rvalue in and binds a reference to an lvalue. -/
def Arg.forward {α : Type} : Arg α → Slot α
  | Arg.rvalue c => Slot.owned c
  | Arg.lvalue addr => Slot.borrowed addr

/-- The constructor `Zip(Containers&&...)` (lines 175-179). -/
def Zip.construct {α : Type} (containers : List (Arg α)) : Zip α :=
  ⟨containers.map Arg.forward⟩

/-- The sequence a member of the tuple denotes: its own, or the one its reference refers
to; a reference to no live sequence denotes none. -/
def Slot.container {α : Type} (store : Store α) : Slot α → Option (Container α)
  | Slot.owned c => some c
  | Slot.borrowed addr => store[addr]?

/-- The sequences the members of `container_tuple_` denote, in order. -/
def Zip.sequences {α : Type} (store : Store α) (z : Zip α) : Option (List (Container α)) :=
  apply_all (Slot.container store) z.container_tuple_

/-- The member `Zip::begin` (lines 181-189): `iterator{std::begin(container)...}`. -/
def Zip.begin {α : Type} (store : Store α) (z : Zip α) : Option (ZipIterator α) :=
  match z.sequences store with
  | none => none
  | some cs => ZipIterator.construct (cs.map std_begin)

/-- The member `Zip::end` (lines 191-199): `iterator{std::end(container)...}`. -/
def Zip.end {α : Type} (store : Store α) (z : Zip α) : Option (ZipIterator α) :=
  match z.sequences store with
  | none => none
  | some cs => ZipIterator.construct (cs.map std_end)

/-- The loop `for (; it != last; ++it) yield *it` that a range-based `for` runs between two
combined cursors, with the values it yields; every loop test uses one unit of `fuel`. -/
def range_for {α : Type} : Nat → ZipIterator α → ZipIterator α → Option (List (List α))
  | 0, _, _ => none
  | fuel + 1, it, last =>
    if it.equal last then some []
    else
      match it.dereference with
      | none => none
      | some x =>
        match it.increment with
        | none => none
        | some next =>
          match range_for fuel next last with
          | none => none
          | some xs => some (x :: xs)

/-- The statement `for (auto x : Zip{...})` (lines 532-535): the loop from `begin()` to
`end()`. -/
def Zip.for_each {α : Type} (fuel : Nat) (store : Store α) (z : Zip α) :
    Option (List (List α)) :=
  match z.begin store, z.end store with
  | some first, some last => range_for fuel first last
  | _, _ => none

/-! ## Access to the sequences of the adapter (source lines 201-205, 257-276) -/

/-- The member `Zip::containers` (lines 201-205): `container_tuple_` returned by value. A
member of reference type `T&` is copied as a reference to the same sequence; a member of
value type `T` is copied into the returned tuple. -/
def Zip.containers {α : Type} (z : Zip α) : List (Slot α) :=
  z.container_tuple_

/-- The assignment `seq[j] = x` to an element of a sequence, through the sequence or one of
its cursors; undefined when the sequence has no element `j`. -/
def Container.assign {α : Type} (c : Container α) (j : Nat) (x : α) : Option (Container α) :=
  if j < c.elems.length then some ⟨c.category, c.elems.set j x⟩ else none

/-- The assignment `member[j] = x` through a member of a tuple of sequences: through a
reference it changes the sequence referred to, in the store; through a value it changes
that value. The result is the store and the member afterwards. -/
def Slot.assign {α : Type} (store : Store α) (j : Nat) (x : α) :
    Slot α → Option (Store α × Slot α)
  | Slot.owned c =>
    match c.assign j x with
    | none => none
    | some c1 => some (store, Slot.owned c1)
  | Slot.borrowed addr =>
    match store[addr]? with
    | none => none
    | some c =>
      match c.assign j x with
      | none => none
      | some c1 => some (store.set addr c1, Slot.borrowed addr)

/-- The statement `std::get<i>(z.containers())[j] = x;` (line 263): the store and the adapter
after it. The tuple that `containers()` returned is a temporary of the statement: it is
written through and then dropped, and `container_tuple_` itself is not assigned to. -/
def Zip.assign_through_containers {α : Type} (store : Store α) (z : Zip α) (i j : Nat)
    (x : α) : Option (Store α × Zip α) :=
  match z.containers[i]? with
  | none => none
  | some member =>
    match member.assign store j x with
    | none => none
    | some (store1, _) => some (store1, z)

/-! ## Paired range (source lines 461-497) -/

/-- The call `std::next(it)`: a copy of the cursor, incremented once. -/
def std_next {α : Type} (it : Cursor α) : Option (Cursor α) :=
  it.increment

/-- The call `std::prev(it)`: a copy of the cursor, decremented once; it requires a
bidirectional cursor and is undefined otherwise. -/
def std_prev {α : Type} (it : Cursor α) : Option (Cursor α) :=
  it.decrement

/-- The class `PairedRange<Container>`: its only state is `container_`, held by value or by
reference as the members of `Zip` are. -/
structure PairedRange (α : Type) where
  container_ : Slot α

/-- The constructor `PairedRange(Container&&)` (lines 470-474). -/
def PairedRange.construct {α : Type} (container : Arg α) : PairedRange α :=
  ⟨container.forward⟩

/-- The member `PairedRange::begin` (lines 476-480):
`{std::begin(container_), std::next(std::begin(container_))}`. -/
def PairedRange.begin {α : Type} (store : Store α) (p : PairedRange α) :
    Option (ZipIterator α) :=
  match p.container_.container store with
  | none => none
  | some c =>
    match std_next (std_begin c) with
    | none => none
    | some second => ZipIterator.construct [std_begin c, second]

/-- The member `PairedRange::end` (lines 482-487):
`{std::prev(std::end(container_)), std::end(container_)}`. -/
def PairedRange.end {α : Type} (store : Store α) (p : PairedRange α) :
    Option (ZipIterator α) :=
  match p.container_.container store with
  | none => none
  | some c =>
    match std_prev (std_end c) with
    | none => none
    | some first => ZipIterator.construct [first, std_end c]

/-- The statement `for (auto [a, b] : PairedRange{v})` (lines 503-506): the loop from
`begin()` to `end()`. -/
def PairedRange.for_each {α : Type} (fuel : Nat) (store : Store α) (p : PairedRange α) :
    Option (List (List α)) :=
  match p.begin store, p.end store with
  | some first, some last => range_for fuel first last
  | _, _ => none

/-! ## Auxiliary notions used in the statements -/

/-- The cursor `j` positions after `it` in the same sequence. -/
def Cursor.shift {α : Type} (j : Nat) (it : Cursor α) : Cursor α :=
  ⟨it.category, it.seq, it.pos + j⟩

/-- The cursor one position before `it` in the same sequence. -/
def Cursor.back {α : Type} (it : Cursor α) : Cursor α :=
  ⟨it.category, it.seq, it.pos - 1⟩

/-- The sequences of the demo `use_zip` (lines 527-530), at addresses 0, 1 and 2. -/
def use_zip_store : Store Value :=
  [std_vector [Value.int 1, Value.int 2, Value.int 3, Value.int 4, Value.int 5],
   std_list [Value.string "a", Value.string "b", Value.string "c", Value.string "d",
     Value.string "e"],
   std_list [Value.string "fds", Value.string "gfds", Value.string "hfgd",
     Value.string "jht", Value.string "uytr"]]

/-- The adapter `Zip{v, l, other}` of the demo `use_zip` (line 532). -/
def use_zip_zip : Zip Value :=
  Zip.construct [Arg.lvalue 0, Arg.lvalue 1, Arg.lvalue 2]

/-- The vector `v{1,2,3}` of the cursor tests (lines 380, 390, 401). -/
def test_v : Container Value :=
  std_vector [Value.int 1, Value.int 2, Value.int 3]

/-- The list `l{1.0f,2.0f,3.0f}` of the cursor tests (lines 381, 391, 402). -/
def test_l : Container Value :=
  std_list [Value.float 1, Value.float 2, Value.float 3]

/-- The combined cursor of a paired range over `c` whose first component is at offset `k`
and whose second is at offset `k + 1`. -/
def paired_at {α : Type} (c : Container α) (k : Nat) : ZipIterator α :=
  ⟨[⟨c.category, c.elems, k⟩, ⟨c.category, c.elems, k + 1⟩]⟩

/-- A cursor is well-formed when its offset is at most the past-the-end offset; the start
and end cursors are, and increment and decrement keep it so. -/
def Cursor.valid {α : Type} (it : Cursor α) : Prop :=
  it.pos ≤ it.seq.length

/-- The components of a combined cursor are in lockstep when they are all at one offset. -/
def ZipIterator.lockstep {α : Type} (it : ZipIterator α) : Prop :=
  ∀ a ∈ it.iterator_tuple_, ∀ b ∈ it.iterator_tuple_, a.pos = b.pos

/-- A left fold of the two-tag `WeakestIteratorTag` over the tags `a, t1, t2, ...`. -/
def fold_left_weakest : IteratorTag → List IteratorTag → Option IteratorTag
  | a, [] => some a
  | a, t :: ts => (WeakestIteratorTag [a, t]).bind (fun b => fold_left_weakest b ts)

/-- A right fold of the two-tag `WeakestIteratorTag` over the tags `a, t1, t2, ...`. -/
def fold_right_weakest : IteratorTag → List IteratorTag → Option IteratorTag
  | a, [] => some a
  | a, t :: ts => (fold_right_weakest t ts).bind (fun b => WeakestIteratorTag [a, b])

/-- The vector `v{1,2,3}` and the list `l{1,2,3}` of the ownership tests (lines 259-260,
270-271). -/
def test_ints : Store Value :=
  [std_vector [Value.int 1, Value.int 2, Value.int 3],
   std_list [Value.int 1, Value.int 2, Value.int 3]]

/-- The vector `v{1,2,3,4,5,6,7,8}` of the demo `temp` (line 501). -/
def temp_v : Container Value :=
  std_vector [Value.int 1, Value.int 2, Value.int 3, Value.int 4, Value.int 5, Value.int 6,
    Value.int 7, Value.int 8]

/-! ## Lemmas on the capability-rank engine -/

theorem tag_to_rank_pos (t : IteratorTag) : 1 ≤ tag_to_rank t := by
  cases t <;> decide

theorem tag_to_rank_le_three (t : IteratorTag) : tag_to_rank t ≤ 3 := by
  cases t <;> decide

theorem select_min_eq_min (a b : Nat) : select_min a b = min a b := by
  unfold select_min
  split
  · rename_i h; exact (Nat.min_eq_right (Nat.le_of_not_lt h)).symm
  · rename_i h; exact (Nat.min_eq_left (Nat.le_of_lt (not_not.mp h))).symm

theorem foldl_select_min_le_init (rs : List Nat) (r : Nat) : rs.foldl select_min r ≤ r := by
  induction rs generalizing r with
  | nil => exact Nat.le_refl r
  | cons x xs ih =>
    simp only [List.foldl_cons, select_min_eq_min]
    exact Nat.le_trans (ih _) (Nat.min_le_left r x)

theorem foldl_select_min_le_mem (rs : List Nat) (r x : Nat) (hx : x ∈ rs) :
    rs.foldl select_min r ≤ x := by
  induction rs generalizing r with
  | nil => cases hx
  | cons y ys ih =>
    simp only [List.foldl_cons, select_min_eq_min]
    rcases List.mem_cons.mp hx with h | h
    · subst h
      exact Nat.le_trans (foldl_select_min_le_init ys _) (Nat.min_le_right r x)
    · exact ih _ h

theorem foldl_select_min_mem (rs : List Nat) (r : Nat) :
    rs.foldl select_min r = r ∨ rs.foldl select_min r ∈ rs := by
  induction rs generalizing r with
  | nil => exact Or.inl rfl
  | cons y ys ih =>
    simp only [List.foldl_cons, select_min_eq_min]
    rcases ih (min r y) with h | h
    · rcases Nat.le_total r y with hle | hle
      · left; rw [h]; exact Nat.min_eq_left hle
      · right; rw [h, Nat.min_eq_right hle]; exact List.mem_cons_self _ _
    · right; exact List.mem_cons_of_mem _ h

/-- On a non-empty sequence `min_element` yields a member that is below every member. -/
theorem min_element_spec (rs : List Nat) (h : rs ≠ []) :
    ∃ m, min_element rs = some m ∧ m ∈ rs ∧ ∀ r ∈ rs, m ≤ r := by
  cases rs with
  | nil => exact absurd rfl h
  | cons r rs =>
    refine ⟨rs.foldl select_min r, rfl, ?_, ?_⟩
    · rcases foldl_select_min_mem rs r with h1 | h1
      · rw [h1]; exact List.mem_cons_self _ _
      · exact List.mem_cons_of_mem _ h1
    · intro x hx
      rcases List.mem_cons.mp hx with h1 | h1
      · subst h1; exact foldl_select_min_le_init rs _
      · exact foldl_select_min_le_mem rs r x h1

/-- A least member of a list is unique. -/
theorem least_unique (rs : List Nat) (m m' : Nat) (hm : m ∈ rs) (hle : ∀ r ∈ rs, m ≤ r)
    (hm' : m' ∈ rs) (hle' : ∀ r ∈ rs, m' ≤ r) : m = m' :=
  Nat.le_antisymm (hle _ hm') (hle' _ hm)

/-- The tag of the rank of a tag: the rank-1 tags collapse to `forward_iterator_tag`. -/
theorem rank_to_tag_tag_to_rank (t : IteratorTag) :
    rank_to_tag (tag_to_rank t) =
      some (if t = input_iterator_tag ∨ t = output_iterator_tag then forward_iterator_tag
        else t) := by
  cases t <;> rfl

/-- The result of `WeakestIteratorTag` on a non-empty pack: some member `t` of the pack has
the least rank, and the result is the tag of that rank. -/
theorem WeakestIteratorTag_min (tags : List IteratorTag) (h : tags ≠ []) :
    ∃ t, t ∈ tags ∧ (∀ u ∈ tags, tag_to_rank t ≤ tag_to_rank u) ∧
      WeakestIteratorTag tags = rank_to_tag (tag_to_rank t) := by
  have hne : tags.map tag_to_rank ≠ [] := by
    intro h0; exact h (List.map_eq_nil_iff.mp h0)
  obtain ⟨m, hm, hmem, hle⟩ := min_element_spec _ hne
  obtain ⟨t, ht, rfl⟩ := List.mem_map.mp hmem
  refine ⟨t, ht, ?_, ?_⟩
  · intro u hu; exact hle _ (List.mem_map_of_mem _ hu)
  · unfold WeakestIteratorTag
    simp only [hm]
    rfl

/-- A tag supports a capability of rank at most its own, other than the two single-pass
ones, exactly when it is not itself single-pass. -/
theorem supports_iff_not_single_pass : ∀ t r : IteratorTag,
    r ≠ input_iterator_tag → r ≠ output_iterator_tag → tag_to_rank r ≤ tag_to_rank t →
      (supports t r ↔ (t ≠ input_iterator_tag ∧ t ≠ output_iterator_tag)) := by
  decide

/-- The result of `WeakestIteratorTag` on a non-empty pack, in closed form: with `t` a member
of least rank, it is `t`, or `forward_iterator_tag` when `t` is single-pass. -/
theorem WeakestIteratorTag_closed (tags : List IteratorTag) (h : tags ≠ []) :
    ∃ t, t ∈ tags ∧ (∀ u ∈ tags, tag_to_rank t ≤ tag_to_rank u) ∧
      WeakestIteratorTag tags =
        some (if t = input_iterator_tag ∨ t = output_iterator_tag then forward_iterator_tag
          else t) := by
  obtain ⟨t, ht, hle, hw⟩ := WeakestIteratorTag_min tags h
  exact ⟨t, ht, hle, by rw [hw, rank_to_tag_tag_to_rank]⟩

/-- A tag other than the two single-pass ones is determined by its rank. -/
theorem normal_tag_of_rank : ∀ t r : IteratorTag,
    r ≠ input_iterator_tag → r ≠ output_iterator_tag → tag_to_rank t = tag_to_rank r →
      (if t = input_iterator_tag ∨ t = output_iterator_tag then forward_iterator_tag
        else t) = r := by
  decide

/-- The result of `WeakestIteratorTag` on a non-empty pack, characterised: it is the tag,
other than input and output, whose rank is the least rank in the pack. -/
theorem WeakestIteratorTag_eq_some_iff (tags : List IteratorTag) (h : tags ≠ [])
    (r : IteratorTag) :
    WeakestIteratorTag tags = some r ↔
      (r ≠ input_iterator_tag ∧ r ≠ output_iterator_tag ∧
        (∃ t ∈ tags, tag_to_rank t = tag_to_rank r) ∧
        ∀ u ∈ tags, tag_to_rank r ≤ tag_to_rank u) := by
  obtain ⟨t0, ht0, hle, hw⟩ := WeakestIteratorTag_closed tags h
  have hrank : tag_to_rank (if t0 = input_iterator_tag ∨ t0 = output_iterator_tag then
      forward_iterator_tag else t0) = tag_to_rank t0 := by
    cases t0 <;> rfl
  constructor
  · intro hr
    rw [hw] at hr
    have hr' := Option.some.inj hr
    subst hr'
    refine ⟨?_, ?_, ⟨t0, ht0, hrank.symm⟩, ?_⟩
    · cases t0 <;> decide
    · cases t0 <;> decide
    · intro u hu; rw [hrank]; exact hle u hu
  · rintro ⟨hin, hout, ⟨t, ht, hrt⟩, hler⟩
    rw [hw]
    congr 1
    apply normal_tag_of_rank t0 r hin hout
    have h1 := hle t ht
    have h2 := hler t0 ht0
    omega

theorem WeakestIteratorTag_exists (tags : List IteratorTag) (h : tags ≠ []) :
    ∃ r, WeakestIteratorTag tags = some r := by
  obtain ⟨t0, _, _, hw⟩ := WeakestIteratorTag_closed tags h
  exact ⟨_, hw⟩

/-- The weakest tag of a concatenation is the weakest of the weakest tags of the parts. -/
theorem WeakestIteratorTag_append (xs ys : List IteratorTag) (hx : xs ≠ []) (hy : ys ≠ []) :
    ∃ a b w, WeakestIteratorTag xs = some a ∧ WeakestIteratorTag ys = some b ∧
      WeakestIteratorTag [a, b] = some w ∧ WeakestIteratorTag (xs ++ ys) = some w := by
  obtain ⟨a, ha⟩ := WeakestIteratorTag_exists xs hx
  obtain ⟨b, hb⟩ := WeakestIteratorTag_exists ys hy
  obtain ⟨w, hw⟩ := WeakestIteratorTag_exists [a, b] (List.cons_ne_nil _ _)
  refine ⟨a, b, w, ha, hb, hw, ?_⟩
  obtain ⟨_, _, ⟨ta, hta, hra⟩, hlea⟩ := (WeakestIteratorTag_eq_some_iff xs hx a).mp ha
  obtain ⟨_, _, ⟨tb, htb, hrb⟩, hleb⟩ := (WeakestIteratorTag_eq_some_iff ys hy b).mp hb
  obtain ⟨hin, hout, ⟨t, ht, hrt⟩, hlew⟩ :=
    (WeakestIteratorTag_eq_some_iff [a, b] (List.cons_ne_nil _ _) w).mp hw
  have hwa := hlew a (List.mem_cons_self _ _)
  have hwb := hlew b (List.mem_cons_of_mem _ (List.mem_cons_self _ _))
  apply (WeakestIteratorTag_eq_some_iff (xs ++ ys) (by simp [hx]) w).mpr
  refine ⟨hin, hout, ?_, ?_⟩
  · rcases List.mem_cons.mp ht with h1 | h1
    · subst h1
      exact ⟨ta, List.mem_append_left _ hta, by omega⟩
    · have h2 : t = b := by simpa using h1
      subst h2
      exact ⟨tb, List.mem_append_right _ htb, by omega⟩
  · intro u hu
    rcases List.mem_append.mp hu with h1 | h1
    · have := hlea u h1; omega
    · have := hleb u h1; omega

/-- The weakest tag of a pack does not depend on the order of the pack. -/
theorem WeakestIteratorTag_perm (xs p : List IteratorTag) (hp : xs.Perm p) :
    WeakestIteratorTag p = WeakestIteratorTag xs := by
  by_cases hx : xs = []
  · subst hx
    rw [List.nil_perm.mp hp]
  · have hpne : p ≠ [] := by
      intro h0
      subst h0
      exact hx (List.perm_nil.mp hp)
    obtain ⟨r, hr⟩ := WeakestIteratorTag_exists xs hx
    rw [hr]
    obtain ⟨hin, hout, ⟨t, ht, hrt⟩, hle⟩ := (WeakestIteratorTag_eq_some_iff xs hx r).mp hr
    apply (WeakestIteratorTag_eq_some_iff p hpne r).mpr
    exact ⟨hin, hout, ⟨t, hp.mem_iff.mp ht, hrt⟩, fun u hu => hle u (hp.mem_iff.mpr hu)⟩

/-- In a two-tag pack, a tag may be replaced by the weakest tag of itself alone. -/
theorem WeakestIteratorTag_pair_normal : ∀ a t : IteratorTag,
    WeakestIteratorTag [a, if t = input_iterator_tag ∨ t = output_iterator_tag then
      forward_iterator_tag else t] = WeakestIteratorTag [a, t] ∧
    WeakestIteratorTag [if t = input_iterator_tag ∨ t = output_iterator_tag then
      forward_iterator_tag else t, a] = WeakestIteratorTag [t, a] := by
  decide

theorem WeakestIteratorTag_singleton (t : IteratorTag) :
    WeakestIteratorTag [t] =
      some (if t = input_iterator_tag ∨ t = output_iterator_tag then forward_iterator_tag
        else t) := by
  cases t <;> rfl

/-- A left fold that starts from the weakest tag of a non-empty pack and runs over further
tags ends at the weakest tag of all of them. -/
theorem fold_left_weakest_eq (ts : List IteratorTag) :
    ∀ (pre : List IteratorTag) (b : IteratorTag), pre ≠ [] →
      WeakestIteratorTag pre = some b →
      fold_left_weakest b ts = WeakestIteratorTag (pre ++ ts) := by
  induction ts with
  | nil =>
    intro pre b _ hb
    rw [List.append_nil, hb]
    rfl
  | cons t ts ih =>
    intro pre b hpre hb
    obtain ⟨a1, b1, w, ha1, hb1, hw, hall⟩ :=
      WeakestIteratorTag_append pre [t] hpre (List.cons_ne_nil _ _)
    rw [hb] at ha1
    have hab : a1 = b := (Option.some.inj ha1).symm
    subst hab
    rw [WeakestIteratorTag_singleton] at hb1
    have hb1' := Option.some.inj hb1
    subst hb1'
    rw [(WeakestIteratorTag_pair_normal a1 t).1] at hw
    have hstep := ih (pre ++ [t]) w (by simp) hall
    simp only [fold_left_weakest, hw, Option.some_bind, List.append_assoc,
      List.singleton_append] at hstep ⊢
    exact hstep

/-- A right fold over a pack of at least two tags ends at the weakest tag of the pack. -/
theorem fold_right_weakest_eq (ts : List IteratorTag) :
    ∀ (t : IteratorTag), ts ≠ [] →
      fold_right_weakest t ts = WeakestIteratorTag (t :: ts) := by
  induction ts with
  | nil => intro t h; exact absurd rfl h
  | cons s ss ih =>
    intro t _
    cases ss with
    | nil =>
      simp only [fold_right_weakest, Option.some_bind]
    | cons s1 ss1 =>
      have hrec := ih s (List.cons_ne_nil _ _)
      obtain ⟨a1, b1, w, ha1, hb1, hw, hall⟩ :=
        WeakestIteratorTag_append [t] (s :: s1 :: ss1) (List.cons_ne_nil _ _)
          (List.cons_ne_nil _ _)
      rw [WeakestIteratorTag_singleton] at ha1
      have ha1' := Option.some.inj ha1
      subst ha1'
      rw [(WeakestIteratorTag_pair_normal b1 t).2] at hw
      have hfold : fold_right_weakest t (s :: s1 :: ss1) =
          (fold_right_weakest s (s1 :: ss1)).bind (fun b => WeakestIteratorTag [t, b]) := rfl
      rw [hfold, hrec, hb1, Option.some_bind, hw]
      exact hall.symm

/-! ## Lemmas on the combined cursor -/

theorem apply_all_eq_some_iff {β γ : Type} (f : β → Option γ) (l : List β) (row : List γ) :
    apply_all f l = some row ↔ row.map some = l.map f := by
  induction l generalizing row with
  | nil =>
    simp only [apply_all, List.map_nil, List.map_eq_nil_iff, Option.some.injEq]
    exact eq_comm
  | cons x xs ih =>
    simp only [apply_all, List.map_cons]
    cases hfx : f x with
    | none =>
      constructor
      · intro h0; cases h0
      · intro hrow
        cases row with
        | nil => simp at hrow
        | cons r rs => simp at hrow
    | some y =>
      cases hxs : apply_all f xs with
      | none =>
        constructor
        · intro h0; cases h0
        · intro hrow
          cases row with
          | nil => simp at hrow
          | cons r rs =>
            simp only [List.map_cons, List.cons.injEq] at hrow
            have := (ih rs).mpr hrow.2
            rw [hxs] at this
            cases this
      | some ys =>
        have hys := (ih ys).mp hxs
        cases row with
        | nil => simp
        | cons r rs =>
          simp only [Option.some.injEq, List.cons.injEq, List.map_cons]
          constructor
          · rintro ⟨rfl, rfl⟩
            exact ⟨rfl, hys⟩
          · rintro ⟨hr, hrs⟩
            refine ⟨hr.symm, ?_⟩
            have := (ih rs).mpr hrs
            rw [hxs] at this
            exact Option.some.inj this

/-- If every call has the result `g x`, the pack of results is the image under `g`. -/
theorem apply_all_eq_map {β γ : Type} (f : β → Option γ) (g : β → γ) (l : List β)
    (h : ∀ x ∈ l, f x = some (g x)) : apply_all f l = some (l.map g) := by
  rw [apply_all_eq_some_iff, List.map_map]
  apply List.map_congr_left
  intro x hx
  exact (h x hx).symm

/-- If every call has a result, so has the whole pack. -/
theorem apply_all_exists {β γ : Type} (f : β → Option γ) (l : List β)
    (h : ∀ x ∈ l, ∃ y, f x = some y) :
    ∃ row, apply_all f l = some row ∧ row.map some = l.map f := by
  induction l with
  | nil => exact ⟨[], rfl, rfl⟩
  | cons x xs ih =>
    obtain ⟨y, hy⟩ := h x (List.mem_cons_self _ _)
    obtain ⟨ys, hys, hmap⟩ := ih (fun z hz => h z (List.mem_cons_of_mem _ hz))
    refine ⟨y :: ys, ?_, ?_⟩
    · simp only [apply_all, hy, hys]
    · simp only [List.map_cons, hy, hmap]

theorem ZipIterator_construct_of_ne_nil {α : Type} (iterators : List (Cursor α))
    (h : iterators ≠ []) : ZipIterator.construct iterators = some ⟨iterators⟩ := by
  have hne : iterators.map Cursor.category ≠ [] := by
    intro h0; exact h (List.map_eq_nil_iff.mp h0)
  obtain ⟨t, _, _, hw⟩ := WeakestIteratorTag_closed _ hne
  unfold ZipIterator.construct ZipIteratorTraits.iterator_category
  rw [hw]
  rfl

theorem ZipIterator_increment_eq {α : Type} (its : List (Cursor α))
    (h : ∀ c ∈ its, c.pos < c.seq.length) :
    ZipIterator.increment ⟨its⟩ = some ⟨its.map (Cursor.shift 1)⟩ := by
  unfold ZipIterator.increment
  rw [apply_all_eq_map Cursor.increment (Cursor.shift 1) its]
  · rfl
  · intro c hc
    unfold Cursor.increment Cursor.shift
    rw [if_pos (h c hc)]

theorem ZipIterator_decrement_eq {α : Type} (its : List (Cursor α))
    (h : ∀ c ∈ its, 2 ≤ tag_to_rank c.category ∧ 0 < c.pos) :
    ZipIterator.decrement ⟨its⟩ = some ⟨its.map Cursor.back⟩ := by
  unfold ZipIterator.decrement
  rw [apply_all_eq_map Cursor.decrement Cursor.back its]
  · rfl
  · intro c hc
    unfold Cursor.decrement Cursor.back
    rw [if_pos (h c hc)]

theorem Cursor_shift_shift {α : Type} (i j : Nat) (c : Cursor α) :
    Cursor.shift j (Cursor.shift i c) = Cursor.shift (i + j) c := by
  simp only [Cursor.shift, Nat.add_assoc]

theorem ZipIterator_advance_eq {α : Type} (j : Nat) (its : List (Cursor α))
    (h : ∀ c ∈ its, c.pos + j ≤ c.seq.length) :
    ZipIterator.advance j ⟨its⟩ = some ⟨its.map (Cursor.shift j)⟩ := by
  induction j generalizing its with
  | zero =>
    have hid : its.map (Cursor.shift 0) = its := by
      rw [List.map_congr_left (g := id)]
      · exact List.map_id its
      · intro c _; rfl
    rw [hid]; rfl
  | succ j ih =>
    have hinc : ZipIterator.increment ⟨its⟩ = some ⟨its.map (Cursor.shift 1)⟩ :=
      ZipIterator_increment_eq its (fun c hc => by have := h c hc; omega)
    simp only [ZipIterator.advance, hinc]
    rw [ih]
    · rw [List.map_map]
      congr 2
      apply List.map_congr_left
      intro c _
      simp only [Function.comp, Cursor_shift_shift, Nat.add_comm]
    · intro c hc
      obtain ⟨c0, hc0, rfl⟩ := List.mem_map.mp hc
      have := h c0 hc0
      simp only [Cursor.shift]
      omega

theorem ZipIterator_dereference_eq {α : Type} (its : List (Cursor α))
    (h : ∀ c ∈ its, c.pos < c.seq.length) :
    ∃ row, ZipIterator.dereference ⟨its⟩ = some row ∧
      row.map some = its.map (fun c => c.seq[c.pos]?) := by
  unfold ZipIterator.dereference
  apply apply_all_exists
  intro c hc
  have hlt : c.pos < c.seq.length := h c hc
  exact ⟨c.seq[c.pos], by unfold Cursor.dereference; exact List.getElem?_eq_getElem hlt⟩

theorem tuple_equal_map {α β : Type} (f g : β → Cursor α) (l : List β) :
    tuple_equal (l.map f) (l.map g) = l.all (fun c => (f c).equal (g c)) := by
  induction l with
  | nil => rfl
  | cons x xs ih => simp only [List.map_cons, tuple_equal, List.all_cons, ih]

/-- The start cursors moved `k` positions on, against the end cursors: equal when every
sequence has length `k`. -/
theorem equal_end_of_lengths {α : Type} (cs : List (Container α)) (k : Nat)
    (h : ∀ c ∈ cs, c.elems.length = k) :
    ZipIterator.equal ⟨(cs.map std_begin).map (Cursor.shift k)⟩ ⟨cs.map std_end⟩ =
      true := by
  unfold ZipIterator.equal
  rw [List.map_map, tuple_equal_map, List.all_eq_true]
  intro c hc
  simp only [Function.comp, Cursor.equal, Cursor.shift, std_begin, std_end, Nat.zero_add,
    h c hc, beq_self_eq_true]

/-- The start cursors moved `k` positions on, against the end cursors: not equal when some
sequence has a length other than `k`. -/
theorem not_equal_end_of_length_ne {α : Type} (cs : List (Container α)) (k : Nat)
    (c : Container α) (hc : c ∈ cs) (h : c.elems.length ≠ k) :
    ZipIterator.equal ⟨(cs.map std_begin).map (Cursor.shift k)⟩ ⟨cs.map std_end⟩ =
      false := by
  unfold ZipIterator.equal
  rw [List.map_map, tuple_equal_map, List.all_eq_false]
  refine ⟨c, hc, ?_⟩
  simp only [Function.comp, Cursor.equal, Cursor.shift, std_begin, std_end, Nat.zero_add,
    beq_iff_eq]
  exact fun h0 => h h0.symm

theorem map_shift_zero {α : Type} (its : List (Cursor α)) :
    its.map (Cursor.shift 0) = its := by
  rw [List.map_congr_left (g := id)]
  · exact List.map_id its
  · intro c _; rfl

theorem map_shift_succ {α : Type} (its : List (Cursor α)) (k : Nat) :
    (its.map (Cursor.shift k)).map (Cursor.shift 1) = its.map (Cursor.shift (k + 1)) := by
  rw [List.map_map]
  apply List.map_congr_left
  intro c _
  simp only [Function.comp, Cursor_shift_shift]

/-- Dereferencing the start cursors moved `k` positions on gives the `k`-th elements. -/
theorem dereference_at {α : Type} (cs : List (Container α)) (k : Nat)
    (hk : ∀ c ∈ cs, k < c.elems.length) :
    ∃ row, ZipIterator.dereference ⟨(cs.map std_begin).map (Cursor.shift k)⟩ = some row ∧
      row.map some = cs.map (fun c => c.elems[k]?) := by
  obtain ⟨row, hrow, hmap⟩ := ZipIterator_dereference_eq
    ((cs.map std_begin).map (Cursor.shift k)) (by
      intro c hc
      obtain ⟨c1, hc1, rfl⟩ := List.mem_map.mp hc
      obtain ⟨c0, hc0, rfl⟩ := List.mem_map.mp hc1
      have := hk c0 hc0
      simp only [std_begin, Cursor.shift]
      omega)
  refine ⟨row, hrow, ?_⟩
  rw [hmap, List.map_map, List.map_map]
  apply List.map_congr_left
  intro c _
  simp only [Function.comp, std_begin, Cursor.shift, Nat.zero_add]

/-- Incrementing the start cursors moved `k` positions on moves them one further. -/
theorem increment_at {α : Type} (cs : List (Container α)) (k : Nat)
    (hk : ∀ c ∈ cs, k < c.elems.length) :
    ZipIterator.increment ⟨(cs.map std_begin).map (Cursor.shift k)⟩ =
      some ⟨(cs.map std_begin).map (Cursor.shift (k + 1))⟩ := by
  rw [ZipIterator_increment_eq, map_shift_succ]
  intro c hc
  obtain ⟨c1, hc1, rfl⟩ := List.mem_map.mp hc
  obtain ⟨c0, hc0, rfl⟩ := List.mem_map.mp hc1
  have := hk c0 hc0
  simp only [std_begin, Cursor.shift]
  omega

/-- The loop from the start cursors moved `k` positions on to the end cursors, over
sequences of one length `n = k + d`: with more than `d` units of fuel it ends after `d`
rounds, having yielded the elements `k, k + 1, ...` of every sequence. -/
theorem range_for_from {α : Type} (cs : List (Container α)) (hN : cs ≠ []) (n : Nat)
    (hlen : ∀ c ∈ cs, c.elems.length = n) :
    ∀ (d k fuel : Nat), k + d = n → d < fuel →
      ∃ out, range_for fuel ⟨(cs.map std_begin).map (Cursor.shift k)⟩ ⟨cs.map std_end⟩ =
          some out ∧ out.length = d ∧
        ∀ j, j < d → ∃ row, out[j]? = some row ∧
          row.map some = cs.map (fun c => c.elems[k + j]?) := by
  intro d
  induction d with
  | zero =>
    intro k fuel hk hfuel
    obtain ⟨f, rfl⟩ : ∃ f, fuel = f + 1 := ⟨fuel - 1, by omega⟩
    have heq := equal_end_of_lengths cs k (fun c hc => by rw [hlen c hc]; omega)
    refine ⟨[], ?_, rfl, ?_⟩
    · simp only [range_for, heq, if_true]
    · intro j hj; omega
  | succ d ih =>
    intro k fuel hk hfuel
    obtain ⟨f, rfl⟩ : ∃ f, fuel = f + 1 := ⟨fuel - 1, by omega⟩
    obtain ⟨c0, hc0⟩ := List.exists_mem_of_ne_nil cs hN
    have hne := not_equal_end_of_length_ne cs k c0 hc0 (by rw [hlen c0 hc0]; omega)
    have hklt : ∀ c ∈ cs, k < c.elems.length := fun c hc => by rw [hlen c hc]; omega
    obtain ⟨row, hrow, hmap⟩ := dereference_at cs k hklt
    have hinc := increment_at cs k hklt
    obtain ⟨out, hout, hlenout, hrows⟩ := ih (k + 1) f (by omega) (by omega)
    refine ⟨row :: out, ?_, ?_, ?_⟩
    · simp only [range_for, hne, hrow, hinc, hout]
      rfl
    · simp only [List.length_cons, hlenout]
    · intro j hj
      cases j with
      | zero => exact ⟨row, List.getElem?_cons_zero, by simpa using hmap⟩
      | succ j =>
        obtain ⟨r, hr, hrmap⟩ := hrows j (by omega)
        refine ⟨r, by simpa using hr, ?_⟩
        rw [hrmap]
        apply List.map_congr_left
        intro c _
        have : k + 1 + j = k + (j + 1) := by omega
        rw [this]

theorem Cursor_equal_comm {α : Type} (a b : Cursor α) : a.equal b = b.equal a := by
  unfold Cursor.equal
  rw [Bool.eq_iff_iff, beq_iff_eq, beq_iff_eq]
  exact eq_comm

theorem Cursor_equal_refl {α : Type} (a : Cursor α) : a.equal a = true := by
  unfold Cursor.equal
  exact beq_self_eq_true _

theorem tuple_equal_refl {α : Type} (xs : List (Cursor α)) : tuple_equal xs xs = true := by
  induction xs with
  | nil => rfl
  | cons x xs ih => simp only [tuple_equal, Cursor_equal_refl, ih, Bool.and_self]

theorem tuple_equal_comm {α : Type} (xs : List (Cursor α)) :
    ∀ ys : List (Cursor α), tuple_equal xs ys = tuple_equal ys xs := by
  induction xs with
  | nil =>
    intro ys
    cases ys <;> rfl
  | cons x xs ih =>
    intro ys
    cases ys with
    | nil => rfl
    | cons y ys => simp only [tuple_equal, Cursor_equal_comm x y, ih ys]

/-- Two tuples of one size are equal exactly when their members are, index by index. -/
theorem tuple_equal_iff {α : Type} (xs : List (Cursor α)) :
    ∀ ys : List (Cursor α), xs.length = ys.length →
      (tuple_equal xs ys = true ↔
        ∀ (i : Nat) (a b : Cursor α), xs[i]? = some a → ys[i]? = some b →
          a.equal b = true) := by
  induction xs with
  | nil =>
    intro ys hlen
    cases ys with
    | nil =>
      constructor
      · intro _ i a b ha _
        simp at ha
      · intro _; rfl
    | cons y ys => simp at hlen
  | cons x xs ih =>
    intro ys hlen
    cases ys with
    | nil => simp at hlen
    | cons y ys =>
      have hlen' : xs.length = ys.length := by simpa using hlen
      simp only [tuple_equal, Bool.and_eq_true]
      constructor
      · rintro ⟨hxy, hrest⟩ i a b ha hb
        cases i with
        | zero =>
          simp only [List.getElem?_cons_zero, Option.some.injEq] at ha hb
          subst ha; subst hb
          exact hxy
        | succ i =>
          simp only [List.getElem?_cons_succ] at ha hb
          exact (ih ys hlen').mp hrest i a b ha hb
      · intro hall
        refine ⟨hall 0 x y List.getElem?_cons_zero List.getElem?_cons_zero,
          (ih ys hlen').mpr ?_⟩
        intro i a b ha hb
        exact hall (i + 1) a b (by simpa using ha) (by simpa using hb)

/-- Two tuples are unequal as soon as the members at one index are. -/
theorem tuple_equal_false_of {α : Type} (xs : List (Cursor α)) :
    ∀ (ys : List (Cursor α)) (i : Nat) (a b : Cursor α), xs[i]? = some a →
      ys[i]? = some b → a.equal b = false → tuple_equal xs ys = false := by
  induction xs with
  | nil =>
    intro ys i a b ha
    simp at ha
  | cons x xs ih =>
    intro ys i a b ha hb hab
    cases ys with
    | nil => simp at hb
    | cons y ys =>
      cases i with
      | zero =>
        simp only [List.getElem?_cons_zero, Option.some.injEq] at ha hb
        subst ha; subst hb
        simp only [tuple_equal, hab, Bool.false_and]
      | succ i =>
        simp only [List.getElem?_cons_succ] at ha hb
        simp only [tuple_equal, ih ys i a b ha hb hab, Bool.and_false]

/-- If the pack of calls has a result, every call has one. -/
theorem apply_all_some_forall {β γ : Type} (f : β → Option γ) (l : List β) (row : List γ)
    (h : apply_all f l = some row) : ∀ x ∈ l, ∃ y, f x = some y := by
  intro x hx
  have hmap := (apply_all_eq_some_iff f l row).mp h
  have hfx : f x ∈ row.map some := by
    rw [hmap]; exact List.mem_map_of_mem f hx
  obtain ⟨y, _, hy⟩ := List.mem_map.mp hfx
  exact ⟨y, hy.symm⟩

/-- If the pack of calls has a result and every result of a call on `x` is `g x`, the
result of the pack is the image under `g`. -/
theorem apply_all_some_eq_map {β γ : Type} (f : β → Option γ) (g : β → γ) (l : List β)
    (row : List γ) (h : apply_all f l = some row)
    (hg : ∀ x y, f x = some y → y = g x) : row = l.map g := by
  have hall := apply_all_some_forall f l row h
  have h2 := apply_all_eq_map f g l (fun x hx => by
    obtain ⟨y, hy⟩ := hall x hx
    rw [hy, hg x y hy])
  rw [h] at h2
  exact Option.some.inj h2

theorem Cursor_increment_some {α : Type} (c d : Cursor α) (h : c.increment = some d) :
    d = Cursor.shift 1 c ∧ c.pos < c.seq.length := by
  unfold Cursor.increment at h
  split at h
  · rename_i hlt
    exact ⟨(Option.some.inj h).symm, hlt⟩
  · cases h

theorem Cursor_decrement_some {α : Type} (c d : Cursor α) (h : c.decrement = some d) :
    d = Cursor.back c ∧ 2 ≤ tag_to_rank c.category ∧ 0 < c.pos := by
  unfold Cursor.decrement at h
  split at h
  · rename_i hlt
    exact ⟨(Option.some.inj h).symm, hlt⟩
  · cases h

/-- An increment that has a result moved every component one position on. -/
theorem ZipIterator_increment_some {α : Type} (it next : ZipIterator α)
    (h : it.increment = some next) :
    next = ⟨it.iterator_tuple_.map (Cursor.shift 1)⟩ ∧
      ∀ c ∈ it.iterator_tuple_, c.pos < c.seq.length := by
  unfold ZipIterator.increment at h
  cases hrow : apply_all Cursor.increment it.iterator_tuple_ with
  | none => rw [hrow] at h; cases h
  | some row =>
    rw [hrow] at h
    have hnext : next = ⟨row⟩ := (Option.some.inj h).symm
    have hmap := apply_all_some_eq_map Cursor.increment (Cursor.shift 1) _ row hrow
      (fun x y hxy => (Cursor_increment_some x y hxy).1)
    refine ⟨by rw [hnext, hmap], ?_⟩
    intro c hc
    obtain ⟨d, hd⟩ := apply_all_some_forall _ _ row hrow c hc
    exact (Cursor_increment_some c d hd).2

/-- A decrement that has a result moved every component one position back. -/
theorem ZipIterator_decrement_some {α : Type} (it before : ZipIterator α)
    (h : it.decrement = some before) :
    before = ⟨it.iterator_tuple_.map Cursor.back⟩ ∧
      ∀ c ∈ it.iterator_tuple_, 2 ≤ tag_to_rank c.category ∧ 0 < c.pos := by
  unfold ZipIterator.decrement at h
  cases hrow : apply_all Cursor.decrement it.iterator_tuple_ with
  | none => rw [hrow] at h; cases h
  | some row =>
    rw [hrow] at h
    have hbefore : before = ⟨row⟩ := (Option.some.inj h).symm
    have hmap := apply_all_some_eq_map Cursor.decrement Cursor.back _ row hrow
      (fun x y hxy => (Cursor_decrement_some x y hxy).1)
    refine ⟨by rw [hbefore, hmap], ?_⟩
    intro c hc
    obtain ⟨d, hd⟩ := apply_all_some_forall _ _ row hrow c hc
    exact (Cursor_decrement_some c d hd).2

/-- A run of `k` increments that has a result moved every component `k` positions on. -/
theorem ZipIterator_advance_some {α : Type} (k : Nat) :
    ∀ (it itk : ZipIterator α), it.advance k = some itk →
      itk = ⟨it.iterator_tuple_.map (Cursor.shift k)⟩ := by
  induction k with
  | zero =>
    intro it itk h
    have h1 : itk = it := (Option.some.inj h).symm
    rw [h1, map_shift_zero]
  | succ k ih =>
    intro it itk h
    cases hinc : it.increment with
    | none =>
      simp only [ZipIterator.advance, hinc] at h
      cases h
    | some next =>
      simp only [ZipIterator.advance, hinc] at h
      have h1 := ih next itk h
      rw [(ZipIterator_increment_some it next hinc).1] at h1
      rw [h1, List.map_map]
      congr 1
      apply List.map_congr_left
      intro c _
      simp only [Function.comp, Cursor_shift_shift, Nat.add_comm]

/-- A loop that returns ran as many increments as it yielded values and then found its
cursor equal to the end cursor. -/
theorem range_for_some_advance {α : Type} (fuel : Nat) :
    ∀ (it last : ZipIterator α) (out : List (List α)), range_for fuel it last = some out →
      ∃ itk, it.advance out.length = some itk ∧ itk.equal last = true := by
  induction fuel with
  | zero =>
    intro it last out h
    simp only [range_for] at h
    cases h
  | succ fuel ih =>
    intro it last out h
    by_cases heq : it.equal last = true
    · simp only [range_for, heq, if_true, Option.some.injEq] at h
      subst h
      exact ⟨it, rfl, heq⟩
    · simp only [range_for, heq] at h
      cases hd : it.dereference with
      | none => simp [hd] at h
      | some x =>
        cases hinc : it.increment with
        | none => simp [hd, hinc] at h
        | some next =>
          cases hrec : range_for fuel next last with
          | none => simp [hd, hinc, hrec] at h
          | some xs =>
            simp [hd, hinc, hrec] at h
            subst h
            obtain ⟨itk, hadv, hitk⟩ := ih next last xs hrec
            refine ⟨itk, ?_, hitk⟩
            simp only [List.length_cons, ZipIterator.advance, hinc]
            exact hadv

theorem Cursor_increment_isSome {α : Type} (c : Cursor α) (h : c.increment.isSome = true) :
    c.pos < c.seq.length := by
  cases hd : c.increment with
  | none => rw [hd] at h; cases h
  | some d => exact (Cursor_increment_some c d hd).2

theorem Cursor_decrement_isSome {α : Type} (c : Cursor α) (h : c.decrement.isSome = true) :
    2 ≤ tag_to_rank c.category ∧ 0 < c.pos := by
  cases hd : c.decrement with
  | none => rw [hd] at h; cases h
  | some d => exact (Cursor_decrement_some c d hd).2

theorem map_back_map_shift {α : Type} (its : List (Cursor α)) :
    (its.map (Cursor.shift 1)).map Cursor.back = its := by
  rw [List.map_map, List.map_congr_left (g := id)]
  · exact List.map_id its
  · intro c _
    simp only [Function.comp, Cursor.back, Cursor.shift, Nat.add_sub_cancel, id]

theorem map_shift_map_back {α : Type} (its : List (Cursor α)) (h : ∀ c ∈ its, 0 < c.pos) :
    (its.map Cursor.back).map (Cursor.shift 1) = its := by
  rw [List.map_map, List.map_congr_left (g := id)]
  · exact List.map_id its
  · intro c hc
    have hpos := h c hc
    simp only [Function.comp, Cursor.back, Cursor.shift, Nat.sub_add_cancel hpos, id]

/-! ## Lemmas on the access to the sequences -/

theorem getElem?_some_lt {β : Type} (l : List β) (i : Nat) (x : β) (h : l[i]? = some x) :
    i < l.length := by
  by_contra hge
  rw [List.getElem?_eq_none (by omega)] at h
  cases h

/-- The adapter constructed from lvalues holds, member by member, references to them. -/
theorem containers_of_lvalues {α : Type} (addrs : List Nat) :
    (Zip.construct (addrs.map (Arg.lvalue : Nat → Arg α))).containers =
      addrs.map Slot.borrowed := by
  unfold Zip.containers Zip.construct
  simp only [List.map_map]
  rfl

/-- The adapter constructed from rvalues holds, member by member, the sequences moved in. -/
theorem containers_of_rvalues {α : Type} (cs : List (Container α)) :
    (Zip.construct (cs.map Arg.rvalue)).containers = cs.map Slot.owned := by
  unfold Zip.containers Zip.construct
  simp only [List.map_map]
  rfl

theorem sequences_of_rvalues {α : Type} (store : Store α) (cs : List (Container α)) :
    (Zip.construct (cs.map Arg.rvalue)).sequences store = some cs := by
  unfold Zip.sequences Zip.construct
  rw [apply_all_eq_some_iff]
  simp only [List.map_map]
  rfl

/-! ## Lemmas on the paired range -/

theorem paired_increment {α : Type} (c : Container α) (k : Nat)
    (hk : k + 1 < c.elems.length) :
    (paired_at c k).increment = some (paired_at c (k + 1)) := by
  unfold paired_at
  rw [ZipIterator_increment_eq]
  · rfl
  · intro d hd
    simp only [List.mem_cons, List.mem_singleton, List.not_mem_nil, or_false] at hd
    rcases hd with rfl | rfl
    · show k < c.elems.length
      omega
    · exact hk

theorem paired_dereference {α : Type} (c : Container α) (k : Nat)
    (hk : k + 1 < c.elems.length) :
    ∃ a b, c.elems[k]? = some a ∧ c.elems[k + 1]? = some b ∧
      (paired_at c k).dereference = some [a, b] := by
  have hk0 : k < c.elems.length := by omega
  refine ⟨c.elems[k], c.elems[k + 1], List.getElem?_eq_getElem hk0,
    List.getElem?_eq_getElem hk, ?_⟩
  simp only [paired_at, ZipIterator.dereference, apply_all, Cursor.dereference,
    List.getElem?_eq_getElem hk0, List.getElem?_eq_getElem hk]

theorem paired_equal_self {α : Type} (c : Container α) (k : Nat) :
    (paired_at c k).equal (paired_at c k) = true :=
  tuple_equal_refl _

theorem paired_equal_ne {α : Type} (c : Container α) (k m : Nat) (h : k ≠ m) :
    (paired_at c k).equal (paired_at c m) = false := by
  have hb : (k == m) = false := by
    rw [beq_eq_false_iff_ne]
    exact h
  simp only [paired_at, ZipIterator.equal, tuple_equal, Cursor.equal, hb, Bool.false_and]

theorem paired_advance {α : Type} (c : Container α) (j : Nat) :
    ∀ k, k + j + 1 ≤ c.elems.length →
      (paired_at c k).advance j = some (paired_at c (k + j)) := by
  induction j with
  | zero => intro k _; rfl
  | succ j ih =>
    intro k hk
    simp only [ZipIterator.advance, paired_increment c k (by omega)]
    rw [ih (k + 1) (by omega)]
    have : k + 1 + j = k + (j + 1) := by omega
    rw [this]

/-- The loop of a paired range from the pair at offset `k` to the pair whose second
component is past the end: with more than `d` units of fuel it ends after `d` rounds, having
yielded the pairs of neighbours from `k` on, where `k + d + 1` is the length. -/
theorem paired_range_for_from {α : Type} (c : Container α) :
    ∀ (d k fuel : Nat), k + d + 1 = c.elems.length → d < fuel →
      ∃ out, range_for fuel (paired_at c k) (paired_at c (c.elems.length - 1)) = some out ∧
        out.length = d ∧
        ∀ j, j < d → ∃ a b, c.elems[k + j]? = some a ∧ c.elems[k + j + 1]? = some b ∧
          out[j]? = some [a, b] := by
  intro d
  induction d with
  | zero =>
    intro k fuel hk hfuel
    obtain ⟨f, rfl⟩ : ∃ f, fuel = f + 1 := ⟨fuel - 1, by omega⟩
    have hkn : c.elems.length - 1 = k := by omega
    refine ⟨[], ?_, rfl, ?_⟩
    · rw [hkn]
      simp only [range_for, paired_equal_self, if_true]
    · intro j hj; omega
  | succ d ih =>
    intro k fuel hk hfuel
    obtain ⟨f, rfl⟩ : ∃ f, fuel = f + 1 := ⟨fuel - 1, by omega⟩
    have hne := paired_equal_ne c k (c.elems.length - 1) (by omega)
    obtain ⟨a, b, ha, hb, hderef⟩ := paired_dereference c k (by omega)
    have hinc := paired_increment c k (by omega)
    obtain ⟨out, hout, hlenout, hrows⟩ := ih (k + 1) f (by omega) (by omega)
    refine ⟨[a, b] :: out, ?_, ?_, ?_⟩
    · simp only [range_for, hne, hderef, hinc, hout]
      rfl
    · simp only [List.length_cons, hlenout]
    · intro j hj
      cases j with
      | zero => exact ⟨a, b, ha, hb, List.getElem?_cons_zero⟩
      | succ j =>
        obtain ⟨a1, b1, ha1, hb1, hr⟩ := hrows j (by omega)
        have h1 : k + 1 + j = k + (j + 1) := by omega
        rw [h1] at ha1 hb1
        exact ⟨a1, b1, ha1, hb1, by simpa using hr⟩

/-! ## The capability-rank engine: results -/

/-- C2: on every non-empty pack of tags, `WeakestIteratorTag` is the tag of the least rank in
the pack, where the ranks are 1 for input, output and forward, 2 for bidirectional and 3 for
random-access, and the tags of ranks 1, 2, 3 are forward, bidirectional, random-access; so a
least rank of 1 gives forward. -/
theorem WeakestIteratorTag_is_tag_of_min_rank (tags : List IteratorTag) (h : tags ≠ []) :
    (tag_to_rank input_iterator_tag = 1 ∧ tag_to_rank output_iterator_tag = 1 ∧
      tag_to_rank forward_iterator_tag = 1 ∧ tag_to_rank bidirectional_iterator_tag = 2 ∧
      tag_to_rank random_access_iterator_tag = 3) ∧
    (rank_to_tag 1 = some forward_iterator_tag ∧
      rank_to_tag 2 = some bidirectional_iterator_tag ∧
      rank_to_tag 3 = some random_access_iterator_tag) ∧
    ∃ m, m ∈ tags.map tag_to_rank ∧ (∀ r ∈ tags.map tag_to_rank, m ≤ r) ∧
      WeakestIteratorTag tags = rank_to_tag m ∧
      (m = 1 ∧ WeakestIteratorTag tags = some forward_iterator_tag ∨
        m = 2 ∧ WeakestIteratorTag tags = some bidirectional_iterator_tag ∨
        m = 3 ∧ WeakestIteratorTag tags = some random_access_iterator_tag) := by
  refine ⟨⟨rfl, rfl, rfl, rfl, rfl⟩, ⟨rfl, rfl, rfl⟩, ?_⟩
  obtain ⟨t, ht, hle, hw⟩ := WeakestIteratorTag_min tags h
  refine ⟨tag_to_rank t, List.mem_map_of_mem _ ht, ?_, hw, ?_⟩
  · intro r hr
    obtain ⟨u, hu, rfl⟩ := List.mem_map.mp hr
    exact hle u hu
  · rw [hw]
    cases t
    · exact Or.inl ⟨rfl, rfl⟩
    · exact Or.inl ⟨rfl, rfl⟩
    · exact Or.inl ⟨rfl, rfl⟩
    · exact Or.inr (Or.inl ⟨rfl, rfl⟩)
    · exact Or.inr (Or.inr ⟨rfl, rfl⟩)

/-- Witness for C2 on the pack of the source's own test, (bidirectional, random-access). -/
theorem WeakestIteratorTag_is_tag_of_min_rank_witness :
    [bidirectional_iterator_tag, random_access_iterator_tag] ≠ [] ∧
    ((tag_to_rank input_iterator_tag = 1 ∧ tag_to_rank output_iterator_tag = 1 ∧
      tag_to_rank forward_iterator_tag = 1 ∧ tag_to_rank bidirectional_iterator_tag = 2 ∧
      tag_to_rank random_access_iterator_tag = 3) ∧
    (rank_to_tag 1 = some forward_iterator_tag ∧
      rank_to_tag 2 = some bidirectional_iterator_tag ∧
      rank_to_tag 3 = some random_access_iterator_tag) ∧
    ∃ m, m ∈ [bidirectional_iterator_tag, random_access_iterator_tag].map tag_to_rank ∧
      (∀ r ∈ [bidirectional_iterator_tag, random_access_iterator_tag].map tag_to_rank,
        m ≤ r) ∧
      WeakestIteratorTag [bidirectional_iterator_tag, random_access_iterator_tag] =
        rank_to_tag m ∧
      (m = 1 ∧ WeakestIteratorTag [bidirectional_iterator_tag, random_access_iterator_tag] =
          some forward_iterator_tag ∨
        m = 2 ∧ WeakestIteratorTag [bidirectional_iterator_tag, random_access_iterator_tag] =
          some bidirectional_iterator_tag ∨
        m = 3 ∧ WeakestIteratorTag [bidirectional_iterator_tag, random_access_iterator_tag] =
          some random_access_iterator_tag)) :=
  ⟨by decide,
    WeakestIteratorTag_is_tag_of_min_rank
      [bidirectional_iterator_tag, random_access_iterator_tag] (by decide)⟩

/-- C3, as stated, fails on the one-tag pack (input): the result is forward, which the input
tag neither equals nor outranks, so not every component supports the result. -/
theorem supports_weakest_fails_on_input :
    WeakestIteratorTag [input_iterator_tag] = some forward_iterator_tag ∧
    ¬ supports input_iterator_tag forward_iterator_tag ∧
    ¬ ∃ r, WeakestIteratorTag [input_iterator_tag] = some r ∧
      (∀ t ∈ [input_iterator_tag], supports t r) ∧
      (∀ c, tag_to_rank c > tag_to_rank r →
        ¬ ∀ t ∈ [input_iterator_tag], supports t c) := by
  refine ⟨rfl, by decide, ?_⟩
  rintro ⟨r, hr, hall, _⟩
  have hr' : r = forward_iterator_tag := by
    have h0 : WeakestIteratorTag [input_iterator_tag] = some forward_iterator_tag := rfl
    rw [h0] at hr
    exact (Option.some.inj hr).symm
  subst hr'
  exact absurd (hall input_iterator_tag (List.mem_singleton.mpr rfl)) (by decide)

/-- C3 (amended): on every non-empty pack, a component supports the result of
`WeakestIteratorTag` exactly when it is neither the input nor the output tag, so every other
component supports it; and no capability of strictly higher rank than the result is supported
by every component. -/
theorem WeakestIteratorTag_supported (tags : List IteratorTag) (h : tags ≠ []) :
    ∃ r, WeakestIteratorTag tags = some r ∧
      (∀ t ∈ tags,
        (supports t r ↔ (t ≠ input_iterator_tag ∧ t ≠ output_iterator_tag))) ∧
      (∀ c, tag_to_rank c > tag_to_rank r → ¬ ∀ t ∈ tags, supports t c) := by
  obtain ⟨t0, ht0, hle, hw⟩ := WeakestIteratorTag_closed tags h
  refine ⟨_, hw, ?_, ?_⟩
  · intro t ht
    have hrank := hle t ht
    apply supports_iff_not_single_pass
    · revert hrank; cases t0 <;> simp
    · revert hrank; cases t0 <;> simp
    · revert hrank; cases t0 <;> simp [tag_to_rank]
  · intro c hc hall
    have hs := hall t0 ht0
    revert hc hs
    cases t0 <;> cases c <;> decide

/-- Witness for C3 (amended) on the pack (vector, list, forward_list) of the source's test. -/
theorem WeakestIteratorTag_supported_witness :
    [random_access_iterator_tag, bidirectional_iterator_tag, forward_iterator_tag] ≠ [] ∧
    ∃ r, WeakestIteratorTag
        [random_access_iterator_tag, bidirectional_iterator_tag, forward_iterator_tag] =
          some r ∧
      (∀ t ∈ [random_access_iterator_tag, bidirectional_iterator_tag, forward_iterator_tag],
        (supports t r ↔ (t ≠ input_iterator_tag ∧ t ≠ output_iterator_tag))) ∧
      (∀ c, tag_to_rank c > tag_to_rank r →
        ¬ ∀ t ∈ [random_access_iterator_tag, bidirectional_iterator_tag,
          forward_iterator_tag], supports t c) :=
  ⟨by decide,
    WeakestIteratorTag_supported
      [random_access_iterator_tag, bidirectional_iterator_tag, forward_iterator_tag]
      (by decide)⟩

/-- C4, as stated, fails on the pack (output, random-access): the result is forward, which
is not one of the two input tags. -/
theorem weakest_not_among_inputs :
    WeakestIteratorTag [output_iterator_tag, random_access_iterator_tag] =
      some forward_iterator_tag ∧
    ¬ ∃ r, WeakestIteratorTag [output_iterator_tag, random_access_iterator_tag] = some r ∧
      r ∈ [output_iterator_tag, random_access_iterator_tag] ∧
      ∀ u ∈ [output_iterator_tag, random_access_iterator_tag],
        tag_to_rank r ≤ tag_to_rank u := by
  refine ⟨rfl, ?_⟩
  rintro ⟨r, hr, hmem, _⟩
  have h0 : WeakestIteratorTag [output_iterator_tag, random_access_iterator_tag] =
      some forward_iterator_tag := rfl
  rw [h0] at hr
  have hr' : r = forward_iterator_tag := (Option.some.inj hr).symm
  subst hr'
  revert hmem
  decide

/-- C4 (amended): on every non-empty pack the result of `WeakestIteratorTag` has the least
rank among the inputs, the rank of some input, and is never the input or the output tag; it
is one of the input tags exactly when the pack holds the forward tag or holds neither the
input nor the output tag; and otherwise it is the forward tag, although the forward tag is
not among the inputs. -/
theorem WeakestIteratorTag_weakest_rank (tags : List IteratorTag) (h : tags ≠ []) :
    ∃ r, WeakestIteratorTag tags = some r ∧
      (∀ u ∈ tags, tag_to_rank r ≤ tag_to_rank u) ∧
      (∃ t ∈ tags, tag_to_rank t = tag_to_rank r) ∧
      (r ≠ input_iterator_tag ∧ r ≠ output_iterator_tag) ∧
      (r ∈ tags ↔ (forward_iterator_tag ∈ tags ∨
        (input_iterator_tag ∉ tags ∧ output_iterator_tag ∉ tags))) ∧
      (¬ (forward_iterator_tag ∈ tags ∨
          (input_iterator_tag ∉ tags ∧ output_iterator_tag ∉ tags)) →
        r = forward_iterator_tag ∧ forward_iterator_tag ∉ tags) := by
  obtain ⟨t0, ht0, hle, hw⟩ := WeakestIteratorTag_closed tags h
  have hrank : tag_to_rank (if t0 = input_iterator_tag ∨ t0 = output_iterator_tag then
      forward_iterator_tag else t0) = tag_to_rank t0 := by
    cases t0 <;> rfl
  refine ⟨_, hw, ?_, ⟨t0, ht0, hrank.symm⟩, ?_, ?_, ?_⟩
  · intro u hu; rw [hrank]; exact hle u hu
  · constructor
    · cases t0 <;> decide
    · cases t0 <;> decide
  · constructor
    · intro hmem
      by_cases hf : forward_iterator_tag ∈ tags
      · exact Or.inl hf
      · right
        constructor
        · intro hin
          have h1 := hle _ hin
          revert h1 hmem hf ht0
          cases t0 <;> simp [tag_to_rank]
        · intro hout
          have h1 := hle _ hout
          revert h1 hmem hf ht0
          cases t0 <;> simp [tag_to_rank]
    · rintro (hf | ⟨hin, hout⟩)
      · have h1 := hle _ hf
        revert h1 ht0
        cases t0 <;> simp [tag_to_rank, hf]
      · revert ht0
        cases t0 <;> simp [hin, hout]
  · intro hcond
    have hf : forward_iterator_tag ∉ tags := fun hf => hcond (Or.inl hf)
    refine ⟨?_, hf⟩
    have h1 : tag_to_rank t0 ≤ 1 := by
      by_cases hin : input_iterator_tag ∈ tags
      · exact hle _ hin
      · by_cases hout : output_iterator_tag ∈ tags
        · exact hle _ hout
        · exact absurd (Or.inr ⟨hin, hout⟩) hcond
    revert h1
    cases t0 <;> simp [tag_to_rank]

/-- Witness for C4 (amended) on the pack (input, bidirectional). -/
theorem WeakestIteratorTag_weakest_rank_witness :
    [input_iterator_tag, bidirectional_iterator_tag] ≠ [] ∧
    ∃ r, WeakestIteratorTag [input_iterator_tag, bidirectional_iterator_tag] = some r ∧
      (∀ u ∈ [input_iterator_tag, bidirectional_iterator_tag],
        tag_to_rank r ≤ tag_to_rank u) ∧
      (∃ t ∈ [input_iterator_tag, bidirectional_iterator_tag],
        tag_to_rank t = tag_to_rank r) ∧
      (r ≠ input_iterator_tag ∧ r ≠ output_iterator_tag) ∧
      (r ∈ [input_iterator_tag, bidirectional_iterator_tag] ↔
        (forward_iterator_tag ∈ [input_iterator_tag, bidirectional_iterator_tag] ∨
          (input_iterator_tag ∉ [input_iterator_tag, bidirectional_iterator_tag] ∧
            output_iterator_tag ∉ [input_iterator_tag, bidirectional_iterator_tag]))) ∧
      (¬ (forward_iterator_tag ∈ [input_iterator_tag, bidirectional_iterator_tag] ∨
          (input_iterator_tag ∉ [input_iterator_tag, bidirectional_iterator_tag] ∧
            output_iterator_tag ∉ [input_iterator_tag, bidirectional_iterator_tag])) →
        r = forward_iterator_tag ∧
          forward_iterator_tag ∉ [input_iterator_tag, bidirectional_iterator_tag]) :=
  ⟨by decide,
    WeakestIteratorTag_weakest_rank [input_iterator_tag, bidirectional_iterator_tag]
      (by decide)⟩

/-- C5: `WeakestIteratorTag` of two tags does not depend on their order, over all five
tags, and it always names a tag. -/
theorem WeakestIteratorTag_comm (a b : IteratorTag) :
    WeakestIteratorTag [a, b] = WeakestIteratorTag [b, a] ∧
    (WeakestIteratorTag [a, b]).isSome = true := by
  cases a <;> cases b <;> exact ⟨rfl, rfl⟩

/-- C6: `WeakestIteratorTag` of a tag with itself is the tag of `max (rank a) 1`, which is
the tag of `rank a`: it is `a` for forward, bidirectional and random-access, and forward for
input and output; applying it again to the result changes nothing. -/
theorem WeakestIteratorTag_self (a : IteratorTag) :
    WeakestIteratorTag [a, a] = rank_to_tag (max (tag_to_rank a) 1) ∧
    WeakestIteratorTag [a, a] = rank_to_tag (tag_to_rank a) ∧
    WeakestIteratorTag [a, a] =
      some (if a = input_iterator_tag ∨ a = output_iterator_tag then forward_iterator_tag
        else a) ∧
    ∃ w, WeakestIteratorTag [a, a] = some w ∧ WeakestIteratorTag [w, w] = some w := by
  cases a
  · exact ⟨rfl, rfl, rfl, _, rfl, rfl⟩
  · exact ⟨rfl, rfl, rfl, _, rfl, rfl⟩
  · exact ⟨rfl, rfl, rfl, _, rfl, rfl⟩
  · exact ⟨rfl, rfl, rfl, _, rfl, rfl⟩
  · exact ⟨rfl, rfl, rfl, _, rfl, rfl⟩

/-- C7: rank 1 absorbs. A pack that holds the input, the output or the forward tag has
forward as its weakest tag, whatever else it holds; (forward, random-access) and
(input, bidirectional) give forward, and (bidirectional, random-access) gives
bidirectional. -/
theorem WeakestIteratorTag_rank_one_absorbs (tags : List IteratorTag)
    (h : input_iterator_tag ∈ tags ∨ output_iterator_tag ∈ tags ∨
      forward_iterator_tag ∈ tags) :
    WeakestIteratorTag tags = some forward_iterator_tag ∧
    WeakestIteratorTag [forward_iterator_tag, random_access_iterator_tag] =
      some forward_iterator_tag ∧
    WeakestIteratorTag [input_iterator_tag, bidirectional_iterator_tag] =
      some forward_iterator_tag ∧
    WeakestIteratorTag [bidirectional_iterator_tag, random_access_iterator_tag] =
      some bidirectional_iterator_tag := by
  refine ⟨?_, rfl, rfl, rfl⟩
  have hne : tags ≠ [] := by
    rintro rfl
    simp at h
  obtain ⟨t0, _, hle, hw⟩ := WeakestIteratorTag_min tags hne
  have h1 : tag_to_rank t0 ≤ 1 := by
    rcases h with h | h | h
    · exact hle _ h
    · exact hle _ h
    · exact hle _ h
  have h2 : tag_to_rank t0 = 1 := Nat.le_antisymm h1 (tag_to_rank_pos t0)
  rw [hw, h2]
  rfl

/-- Witness for C7 on the pack (random-access, bidirectional, output, random-access). -/
theorem WeakestIteratorTag_rank_one_absorbs_witness :
    (input_iterator_tag ∈ [random_access_iterator_tag, bidirectional_iterator_tag,
        output_iterator_tag, random_access_iterator_tag] ∨
      output_iterator_tag ∈ [random_access_iterator_tag, bidirectional_iterator_tag,
        output_iterator_tag, random_access_iterator_tag] ∨
      forward_iterator_tag ∈ [random_access_iterator_tag, bidirectional_iterator_tag,
        output_iterator_tag, random_access_iterator_tag]) ∧
    (WeakestIteratorTag [random_access_iterator_tag, bidirectional_iterator_tag,
        output_iterator_tag, random_access_iterator_tag] = some forward_iterator_tag ∧
      WeakestIteratorTag [forward_iterator_tag, random_access_iterator_tag] =
        some forward_iterator_tag ∧
      WeakestIteratorTag [input_iterator_tag, bidirectional_iterator_tag] =
        some forward_iterator_tag ∧
      WeakestIteratorTag [bidirectional_iterator_tag, random_access_iterator_tag] =
        some bidirectional_iterator_tag) :=
  ⟨by decide,
    WeakestIteratorTag_rank_one_absorbs
      [random_access_iterator_tag, bidirectional_iterator_tag, output_iterator_tag,
        random_access_iterator_tag] (by decide)⟩

/-! ## The combined cursor and the adapter: results -/

/-- C1: for a non-empty pack of sequences that all have length `n`, the range-based `for`
over the `Zip` (dereference, then increment, until the cursor equals `end()`) ends, given
more than `n` units of fuel, after exactly `n` rounds: the cursor is not equal to `end()`
after `k < n` increments and is equal after `n`; round `k` yields the tuple of the `k`-th
elements of the sequences in argument order; and for one sequence the tuples yielded are the
one-component tuples of its elements, in order. -/
theorem Zip_for_each_yields_tuples {α : Type} (store : Store α) (z : Zip α)
    (cs : List (Container α)) (n : Nat) (hcs : z.sequences store = some cs) (hN : cs ≠ [])
    (hlen : ∀ c ∈ cs, c.elems.length = n) (fuel : Nat) (hfuel : n < fuel) :
    ∃ first last out, z.begin store = some first ∧ z.end store = some last ∧
      z.for_each fuel store = some out ∧ out.length = n ∧
      (∀ k, k < n → ∃ row, out[k]? = some row ∧
        row.map some = cs.map (fun c => c.elems[k]?)) ∧
      (∀ k, k < n → ∃ itk, first.advance k = some itk ∧ itk.equal last = false) ∧
      (∃ itn, first.advance n = some itn ∧ itn.equal last = true) ∧
      (∀ c, cs = [c] → out = c.elems.map (fun x => [x])) := by
  have hbN : cs.map std_begin ≠ [] := by
    intro h0; exact hN (List.map_eq_nil_iff.mp h0)
  have heN : cs.map std_end ≠ [] := by
    intro h0; exact hN (List.map_eq_nil_iff.mp h0)
  have hbegin : z.begin store = some ⟨cs.map std_begin⟩ := by
    unfold Zip.begin; rw [hcs]; exact ZipIterator_construct_of_ne_nil _ hbN
  have hend : z.end store = some ⟨cs.map std_end⟩ := by
    unfold Zip.end; rw [hcs]; exact ZipIterator_construct_of_ne_nil _ heN
  obtain ⟨out, hout, hlenout, hrows⟩ := range_for_from cs hN n hlen n 0 fuel (by omega) hfuel
  rw [map_shift_zero] at hout
  have hadv : ∀ k, k ≤ n → ZipIterator.advance k ⟨cs.map std_begin⟩ =
      some ⟨(cs.map std_begin).map (Cursor.shift k)⟩ := by
    intro k hk
    apply ZipIterator_advance_eq
    intro c hc
    obtain ⟨c0, hc0, rfl⟩ := List.mem_map.mp hc
    have := hlen c0 hc0
    simp only [std_begin]
    omega
  refine ⟨⟨cs.map std_begin⟩, ⟨cs.map std_end⟩, out, hbegin, hend, ?_, hlenout,
    ?_, ?_, ?_, ?_⟩
  · unfold Zip.for_each
    rw [hbegin, hend]
    exact hout
  · intro k hk
    obtain ⟨row, hrow, hmap⟩ := hrows k hk
    exact ⟨row, hrow, by simpa using hmap⟩
  · intro k hk
    obtain ⟨c0, hc0⟩ := List.exists_mem_of_ne_nil cs hN
    exact ⟨_, hadv k (by omega),
      not_equal_end_of_length_ne cs k c0 hc0 (by rw [hlen c0 hc0]; omega)⟩
  · exact ⟨_, hadv n (Nat.le_refl n), equal_end_of_lengths cs n hlen⟩
  · rintro c rfl
    have hcn : c.elems.length = n := hlen c (List.mem_singleton.mpr rfl)
    apply List.ext_getElem?
    intro i
    by_cases hi : i < n
    · obtain ⟨row, hrow, hmap⟩ := hrows i hi
      have hci : i < c.elems.length := by omega
      have hrow1 : row = [c.elems[i]] := by
        apply List.map_injective_iff.mpr (Option.some_injective α)
        simpa [List.getElem?_eq_getElem hci] using hmap
      rw [hrow, hrow1, List.getElem?_map, List.getElem?_eq_getElem hci]
      rfl
    · rw [List.getElem?_eq_none (by omega), List.getElem?_eq_none (by simp; omega)]

/-- Witness for C1 on the three sequences of length 5 of the demo `use_zip`. -/
theorem Zip_for_each_yields_tuples_witness :
    use_zip_zip.sequences use_zip_store = some use_zip_store ∧ use_zip_store ≠ [] ∧
    (∀ c ∈ use_zip_store, c.elems.length = 5) ∧ 5 < 6 ∧
    ∃ first last out, use_zip_zip.begin use_zip_store = some first ∧
      use_zip_zip.end use_zip_store = some last ∧
      use_zip_zip.for_each 6 use_zip_store = some out ∧ out.length = 5 ∧
      (∀ k, k < 5 → ∃ row, out[k]? = some row ∧
        row.map some = use_zip_store.map (fun c => c.elems[k]?)) ∧
      (∀ k, k < 5 → ∃ itk, first.advance k = some itk ∧ itk.equal last = false) ∧
      (∃ itn, first.advance 5 = some itn ∧ itn.equal last = true) ∧
      (∀ c, use_zip_store = [c] → out = c.elems.map (fun x => [x])) :=
  ⟨rfl, List.cons_ne_nil _ _, by decide, by decide,
    Zip_for_each_yields_tuples use_zip_store use_zip_zip use_zip_store 5 rfl
      (List.cons_ne_nil _ _) (by decide) 6 (by decide)⟩

/-- C8: for a non-empty pack of underlying cursors, the `iterator_category` that
`ZipIteratorTraits` and `ZipIterator` declare, and hence the one of `Zip::begin()`, is
`WeakestIteratorTag` of the categories of the underlying cursors in order, and it names a
tag; a single list cursor gives bidirectional and (vector, list, forward_list) cursors give
forward. -/
theorem ZipIterator_category_is_weakest {α : Type} (iterators : List (Cursor α))
    (hN : iterators ≠ []) (store : Store α) (z : Zip α) (cs : List (Container α))
    (hcs : z.sequences store = some cs) (hcsN : cs ≠ []) :
    ZipIteratorTraits.iterator_category iterators =
      WeakestIteratorTag (iterators.map Cursor.category) ∧
    (WeakestIteratorTag (iterators.map Cursor.category)).isSome = true ∧
    (∃ it, ZipIterator.construct iterators = some it ∧
      it.iterator_category = WeakestIteratorTag (iterators.map Cursor.category)) ∧
    (∃ first, z.begin store = some first ∧
      first.iterator_category = WeakestIteratorTag (cs.map Container.category)) ∧
    (∀ l : List α,
      (Zip.begin [std_list l] (Zip.construct [Arg.lvalue 0])).bind
        ZipIterator.iterator_category = some bidirectional_iterator_tag) ∧
    (∀ v l fl : List α,
      (Zip.begin [std_vector v, std_list l, std_forward_list fl]
          (Zip.construct [Arg.lvalue 0, Arg.lvalue 1, Arg.lvalue 2])).bind
        ZipIterator.iterator_category = some forward_iterator_tag) ∧
    (∀ v l fl : List α,
      ZipIteratorTraits.iterator_category
        [std_begin (std_vector v), std_begin (std_list l), std_begin (std_forward_list fl)] =
          some forward_iterator_tag) := by
  refine ⟨rfl, ?_, ?_, ?_, fun _ => rfl, fun _ _ _ => rfl, fun _ _ _ => rfl⟩
  · have hne : iterators.map Cursor.category ≠ [] := by
      intro h0; exact hN (List.map_eq_nil_iff.mp h0)
    obtain ⟨t, _, _, hw⟩ := WeakestIteratorTag_closed _ hne
    rw [hw]; rfl
  · exact ⟨⟨iterators⟩, ZipIterator_construct_of_ne_nil iterators hN, rfl⟩
  · have hbN : cs.map std_begin ≠ [] := by
      intro h0; exact hcsN (List.map_eq_nil_iff.mp h0)
    refine ⟨⟨cs.map std_begin⟩, ?_, ?_⟩
    · unfold Zip.begin
      rw [hcs]
      exact ZipIterator_construct_of_ne_nil _ hbN
    · show WeakestIteratorTag ((cs.map std_begin).map Cursor.category) = _
      rw [List.map_map]
      rfl

/-- Witness for C8 on the cursors and the adapter of the test
`begin_gives_iterator_with_correct_category_from_many_containers`. -/
theorem ZipIterator_category_is_weakest_witness :
    [std_begin test_v, std_begin test_l] ≠ [] ∧
    use_zip_zip.sequences use_zip_store = some use_zip_store ∧
    use_zip_store ≠ [] ∧
    ZipIteratorTraits.iterator_category [std_begin test_v, std_begin test_l] =
      WeakestIteratorTag ([std_begin test_v, std_begin test_l].map Cursor.category) ∧
    (∃ first, use_zip_zip.begin use_zip_store = some first ∧
      first.iterator_category = WeakestIteratorTag (use_zip_store.map Container.category)) :=
  have h := ZipIterator_category_is_weakest [std_begin test_v, std_begin test_l]
    (List.cons_ne_nil _ _) use_zip_store use_zip_zip use_zip_store rfl (List.cons_ne_nil _ _)
  ⟨List.cons_ne_nil _ _, rfl, List.cons_ne_nil _ _, h.1, h.2.2.2.1⟩

/-- C9: for a non-empty pack of sequences and `k` smaller than the length of each, the
`ZipIterator` constructed from the start cursors and incremented `k` times dereferences to
the tuple of the `k`-th elements, in the order of the cursors; on `[1,2,3]` and
`[1.0,2.0,3.0]`, `k = 0` gives `(1, 1.0)` and `k = 1` gives `(2, 2.0)`. -/
theorem ZipIterator_advance_dereference {α : Type} (cs : List (Container α)) (hN : cs ≠ [])
    (k : Nat) (hk : ∀ c ∈ cs, k < c.elems.length) :
    (∃ it itk row, ZipIterator.construct (cs.map std_begin) = some it ∧
      it.advance k = some itk ∧ itk.dereference = some row ∧
      row.map some = cs.map (fun c => c.elems[k]?)) ∧
    (ZipIterator.construct [std_begin test_v, std_begin test_l]).bind
        (fun it => (it.advance 0).bind ZipIterator.dereference) =
      some [Value.int 1, Value.float 1] ∧
    (ZipIterator.construct [std_begin test_v, std_begin test_l]).bind
        (fun it => (it.advance 1).bind ZipIterator.dereference) =
      some [Value.int 2, Value.float 2] := by
  refine ⟨?_, rfl, rfl⟩
  have hbN : cs.map std_begin ≠ [] := by
    intro h0; exact hN (List.map_eq_nil_iff.mp h0)
  have hadv := ZipIterator_advance_eq k (cs.map std_begin) (by
    intro c hc
    obtain ⟨c0, hc0, rfl⟩ := List.mem_map.mp hc
    have := hk c0 hc0
    simp only [std_begin]
    omega)
  obtain ⟨row, hrow, hmap⟩ := ZipIterator_dereference_eq
    ((cs.map std_begin).map (Cursor.shift k)) (by
      intro c hc
      obtain ⟨c1, hc1, rfl⟩ := List.mem_map.mp hc
      obtain ⟨c0, hc0, rfl⟩ := List.mem_map.mp hc1
      have := hk c0 hc0
      simp only [std_begin, Cursor.shift]
      omega)
  refine ⟨_, _, row, ZipIterator_construct_of_ne_nil _ hbN, hadv, hrow, ?_⟩
  rw [hmap, List.map_map, List.map_map]
  apply List.map_congr_left
  intro c _
  simp only [Function.comp, std_begin, Cursor.shift, Nat.zero_add]

/-- Witness for C9 on the vector and the list of the cursor tests, at `k = 2`. -/
theorem ZipIterator_advance_dereference_witness :
    [test_v, test_l] ≠ [] ∧ (∀ c ∈ [test_v, test_l], 2 < c.elems.length) ∧
    (∃ it itk row, ZipIterator.construct ([test_v, test_l].map std_begin) = some it ∧
      it.advance 2 = some itk ∧ itk.dereference = some row ∧
      row.map some = [test_v, test_l].map (fun c => c.elems[2]?)) :=
  ⟨List.cons_ne_nil _ _, by decide,
    (ZipIterator_advance_dereference [test_v, test_l] (List.cons_ne_nil _ _) 2
      (by decide)).1⟩

/-- C10: for a non-empty pack of non-empty sequences, of any lengths, whose cursors are all
bidirectional or random-access, the `ZipIterator` constructed from the end cursors and
decremented once dereferences to the tuple of the last elements, in the order of the
cursors; on `[1.0,2.0,3.0]` and `[1,2,3]` it gives `(3.0, 3)`. -/
theorem ZipIterator_decrement_from_end {α : Type} (cs : List (Container α)) (hN : cs ≠ [])
    (hne : ∀ c ∈ cs, c.elems ≠ [])
    (hcat : ∀ c ∈ cs, c.category = bidirectional_iterator_tag ∨
      c.category = random_access_iterator_tag) :
    (∃ it before row, ZipIterator.construct (cs.map std_end) = some it ∧
      it.decrement = some before ∧ before.dereference = some row ∧
      row.map some = cs.map (fun c => c.elems.getLast?)) ∧
    (ZipIterator.construct [std_end test_l, std_end test_v]).bind
        (fun it => it.decrement.bind ZipIterator.dereference) =
      some [Value.float 3, Value.int 3] := by
  refine ⟨?_, rfl⟩
  have heN : cs.map std_end ≠ [] := by
    intro h0; exact hN (List.map_eq_nil_iff.mp h0)
  have hdec := ZipIterator_decrement_eq (cs.map std_end) (by
    intro c hc
    obtain ⟨c0, hc0, rfl⟩ := List.mem_map.mp hc
    have h1 := List.length_pos.mpr (hne c0 hc0)
    refine ⟨?_, h1⟩
    rcases hcat c0 hc0 with h2 | h2
    · simp only [std_end, h2]; decide
    · simp only [std_end, h2]; decide)
  obtain ⟨row, hrow, hmap⟩ := ZipIterator_dereference_eq
    ((cs.map std_end).map Cursor.back) (by
      intro c hc
      obtain ⟨c1, hc1, rfl⟩ := List.mem_map.mp hc
      obtain ⟨c0, hc0, rfl⟩ := List.mem_map.mp hc1
      have h1 := List.length_pos.mpr (hne c0 hc0)
      simp only [std_end, Cursor.back]
      omega)
  refine ⟨_, _, row, ZipIterator_construct_of_ne_nil _ heN, hdec, hrow, ?_⟩
  rw [hmap, List.map_map, List.map_map]
  apply List.map_congr_left
  intro c _
  simp only [Function.comp, std_end, Cursor.back]
  exact (List.getLast?_eq_getElem? c.elems).symm

/-- Witness for C10 on a list of three and a vector of one element. -/
theorem ZipIterator_decrement_from_end_witness :
    [test_l, std_vector [Value.bool true]] ≠ [] ∧
    (∀ c ∈ [test_l, std_vector [Value.bool true]], c.elems ≠ []) ∧
    (∀ c ∈ [test_l, std_vector [Value.bool true]],
      c.category = bidirectional_iterator_tag ∨ c.category = random_access_iterator_tag) ∧
    (∃ it before row,
      ZipIterator.construct ([test_l, std_vector [Value.bool true]].map std_end) = some it ∧
      it.decrement = some before ∧ before.dereference = some row ∧
      row.map some = [test_l, std_vector [Value.bool true]].map (fun c => c.elems.getLast?)) :=
  ⟨List.cons_ne_nil _ _, by simp [test_l, std_list, std_vector],
    by simp [test_l, std_list, std_vector],
    (ZipIterator_decrement_from_end [test_l, std_vector [Value.bool true]]
      (List.cons_ne_nil _ _) (by simp [test_l, std_list, std_vector])
      (by simp [test_l, std_list, std_vector])).1⟩

/-! ## Further results on the capability-rank engine -/

/-- C17: `tag_to_rank` sends each of the five tags to a rank in 1..3 (input, output, forward
to 1, bidirectional to 2, random-access to 3); `rank_to_tag` is defined exactly on the ranks
1, 2, 3 and is a right inverse there; and `rank_to_tag` after `tag_to_rank` gives back
forward, bidirectional and random-access and sends input and output to forward. -/
theorem rank_to_tag_inverse :
    (∀ t : IteratorTag, 1 ≤ tag_to_rank t ∧ tag_to_rank t ≤ 3) ∧
    (tag_to_rank input_iterator_tag = 1 ∧ tag_to_rank output_iterator_tag = 1 ∧
      tag_to_rank forward_iterator_tag = 1 ∧ tag_to_rank bidirectional_iterator_tag = 2 ∧
      tag_to_rank random_access_iterator_tag = 3) ∧
    (∀ r : Nat, (rank_to_tag r).isSome = true ↔ (r = 1 ∨ r = 2 ∨ r = 3)) ∧
    ((rank_to_tag 1).map tag_to_rank = some 1 ∧ (rank_to_tag 2).map tag_to_rank = some 2 ∧
      (rank_to_tag 3).map tag_to_rank = some 3) ∧
    (rank_to_tag (tag_to_rank forward_iterator_tag) = some forward_iterator_tag ∧
      rank_to_tag (tag_to_rank bidirectional_iterator_tag) =
        some bidirectional_iterator_tag ∧
      rank_to_tag (tag_to_rank random_access_iterator_tag) =
        some random_access_iterator_tag) ∧
    (rank_to_tag (tag_to_rank input_iterator_tag) = some forward_iterator_tag ∧
      rank_to_tag (tag_to_rank output_iterator_tag) = some forward_iterator_tag) := by
  refine ⟨fun t => ⟨tag_to_rank_pos t, tag_to_rank_le_three t⟩, ⟨rfl, rfl, rfl, rfl, rfl⟩,
    ?_, ⟨rfl, rfl, rfl⟩, ⟨rfl, rfl, rfl⟩, ⟨rfl, rfl⟩⟩
  intro r
  match r with
  | 0 => simp [rank_to_tag]
  | 1 => simp [rank_to_tag]
  | 2 => simp [rank_to_tag]
  | 3 => simp [rank_to_tag]
  | n + 4 => simp [rank_to_tag]

/-- C19, as stated, fails on the one-tag pack (input): a fold of the two-tag weakest over a
single tag applies it nowhere and is that tag, while `WeakestIteratorTag` of the pack is
forward. -/
theorem fold_of_one_tag_differs :
    fold_left_weakest input_iterator_tag [] = some input_iterator_tag ∧
    fold_right_weakest input_iterator_tag [] = some input_iterator_tag ∧
    WeakestIteratorTag [input_iterator_tag] = some forward_iterator_tag ∧
    WeakestIteratorTag [input_iterator_tag] ≠ fold_left_weakest input_iterator_tag [] ∧
    WeakestIteratorTag [input_iterator_tag] ≠ fold_right_weakest input_iterator_tag [] := by
  refine ⟨rfl, rfl, rfl, ?_, ?_⟩
  · intro h
    have h1 : some forward_iterator_tag = some input_iterator_tag := h
    exact absurd (Option.some.inj h1) (by decide)
  · intro h
    have h1 : some forward_iterator_tag = some input_iterator_tag := h
    exact absurd (Option.some.inj h1) (by decide)

/-- C19 (amended): `WeakestIteratorTag` of the concatenation of two non-empty packs is the
two-tag weakest of the weakest tags of the parts; it is the same on every permutation of a
pack; and on a pack of at least two tags it is the left fold and the right fold of the
two-tag weakest. On a pack of one tag it is that tag with input and output replaced by
forward. -/
theorem WeakestIteratorTag_decomposes (xs ys p : List IteratorTag) (hx : xs ≠ [])
    (hy : ys ≠ []) (hp : xs.Perm p) (a t : IteratorTag) (ts : List IteratorTag) :
    (∃ wa wb w, WeakestIteratorTag xs = some wa ∧ WeakestIteratorTag ys = some wb ∧
      WeakestIteratorTag [wa, wb] = some w ∧ WeakestIteratorTag (xs ++ ys) = some w) ∧
    WeakestIteratorTag p = WeakestIteratorTag xs ∧
    WeakestIteratorTag (a :: t :: ts) = fold_left_weakest a (t :: ts) ∧
    WeakestIteratorTag (a :: t :: ts) = fold_right_weakest a (t :: ts) ∧
    WeakestIteratorTag [a] =
      some (if a = input_iterator_tag ∨ a = output_iterator_tag then forward_iterator_tag
        else a) := by
  refine ⟨WeakestIteratorTag_append xs ys hx hy, WeakestIteratorTag_perm xs p hp, ?_,
    (fold_right_weakest_eq (t :: ts) a (List.cons_ne_nil _ _)).symm,
    WeakestIteratorTag_singleton a⟩
  obtain ⟨w, hw⟩ := WeakestIteratorTag_exists [a, t] (List.cons_ne_nil _ _)
  have h1 := fold_left_weakest_eq ts [a, t] w (List.cons_ne_nil _ _) hw
  simp only [fold_left_weakest, hw, Option.some_bind]
  rw [h1]
  rfl

/-- Witness for C19 (amended) on the packs (random-access, input) and (bidirectional). -/
theorem WeakestIteratorTag_decomposes_witness :
    [random_access_iterator_tag, input_iterator_tag] ≠ [] ∧
    [bidirectional_iterator_tag] ≠ [] ∧
    [random_access_iterator_tag, input_iterator_tag].Perm
      [input_iterator_tag, random_access_iterator_tag] ∧
    (∃ wa wb w,
      WeakestIteratorTag [random_access_iterator_tag, input_iterator_tag] = some wa ∧
      WeakestIteratorTag [bidirectional_iterator_tag] = some wb ∧
      WeakestIteratorTag [wa, wb] = some w ∧
      WeakestIteratorTag ([random_access_iterator_tag, input_iterator_tag] ++
        [bidirectional_iterator_tag]) = some w) ∧
    WeakestIteratorTag [input_iterator_tag, random_access_iterator_tag] =
      WeakestIteratorTag [random_access_iterator_tag, input_iterator_tag] ∧
    WeakestIteratorTag
        (random_access_iterator_tag :: bidirectional_iterator_tag ::
          [random_access_iterator_tag]) =
      fold_left_weakest random_access_iterator_tag
        (bidirectional_iterator_tag :: [random_access_iterator_tag]) :=
  have h := WeakestIteratorTag_decomposes
    [random_access_iterator_tag, input_iterator_tag] [bidirectional_iterator_tag]
    [input_iterator_tag, random_access_iterator_tag] (List.cons_ne_nil _ _)
    (List.cons_ne_nil _ _) (List.Perm.swap _ _ _) random_access_iterator_tag
    bidirectional_iterator_tag [random_access_iterator_tag]
  ⟨List.cons_ne_nil _ _, List.cons_ne_nil _ _, List.Perm.swap _ _ _, h.1, h.2.1, h.2.2.1⟩

/-! ## Further results on the combined cursor -/

/-- C11: for two combined cursors over the same number of underlying cursors, `equal` is
true exactly when at every index the two underlying cursors are equal; it is reflexive and
symmetric, and it is false as soon as the underlying cursors at one index differ. -/
theorem ZipIterator_equal_componentwise {α : Type} (x y : ZipIterator α)
    (hN : x.iterator_tuple_.length = y.iterator_tuple_.length) :
    (x.equal y = true ↔
      ∀ (i : Nat) (a b : Cursor α), x.iterator_tuple_[i]? = some a →
        y.iterator_tuple_[i]? = some b → a.equal b = true) ∧
    x.equal x = true ∧
    x.equal y = y.equal x ∧
    (∀ (i : Nat) (a b : Cursor α), x.iterator_tuple_[i]? = some a →
      y.iterator_tuple_[i]? = some b → a.equal b = false → x.equal y = false) :=
  ⟨tuple_equal_iff x.iterator_tuple_ y.iterator_tuple_ hN,
    tuple_equal_refl x.iterator_tuple_,
    tuple_equal_comm x.iterator_tuple_ y.iterator_tuple_,
    tuple_equal_false_of x.iterator_tuple_ y.iterator_tuple_⟩

/-- Witness for C11 on the start and the end cursors of the vector and the list of the
cursor tests. -/
theorem ZipIterator_equal_componentwise_witness :
    (ZipIterator.mk [std_begin test_v, std_begin test_l]).iterator_tuple_.length =
      (ZipIterator.mk [std_end test_v, std_end test_l]).iterator_tuple_.length ∧
    ((ZipIterator.mk [std_begin test_v, std_begin test_l]).equal
        (ZipIterator.mk [std_end test_v, std_end test_l]) = true ↔
      ∀ (i : Nat) (a b : Cursor Value),
        (ZipIterator.mk [std_begin test_v, std_begin test_l]).iterator_tuple_[i]? = some a →
        (ZipIterator.mk [std_end test_v, std_end test_l]).iterator_tuple_[i]? = some b →
        a.equal b = true) :=
  ⟨rfl,
    (ZipIterator_equal_componentwise (ZipIterator.mk [std_begin test_v, std_begin test_l])
      (ZipIterator.mk [std_end test_v, std_end test_l]) rfl).1⟩

/-- C15: for a non-empty pack of sequences and every `k`, the cursor got from `Zip::begin()`
by `k` increments is equal to `Zip::end()` exactly when every sequence has length `k`; so
when all lengths are `n` the two cursors at offset `n` coincide, and when two lengths differ
no number of increments gives a cursor equal to `end()` and the range-based `for` over the
adapter returns for no amount of fuel. -/
theorem Zip_advance_equal_end_iff {α : Type} (store : Store α) (z : Zip α)
    (cs : List (Container α)) (hcs : z.sequences store = some cs) (hN : cs ≠ []) (k : Nat) :
    ∃ first last, z.begin store = some first ∧ z.end store = some last ∧
      ((∃ itk, first.advance k = some itk ∧ itk.equal last = true) ↔
        ∀ c ∈ cs, c.elems.length = k) ∧
      ((∃ c ∈ cs, ∃ d ∈ cs, c.elems.length ≠ d.elems.length) →
        (∀ j, ¬ ∃ itj, first.advance j = some itj ∧ itj.equal last = true) ∧
        ∀ fuel, z.for_each fuel store = none) := by
  have hbN : cs.map std_begin ≠ [] := by
    intro h0; exact hN (List.map_eq_nil_iff.mp h0)
  have heN : cs.map std_end ≠ [] := by
    intro h0; exact hN (List.map_eq_nil_iff.mp h0)
  have hbegin : z.begin store = some ⟨cs.map std_begin⟩ := by
    unfold Zip.begin; rw [hcs]; exact ZipIterator_construct_of_ne_nil _ hbN
  have hend : z.end store = some ⟨cs.map std_end⟩ := by
    unfold Zip.end; rw [hcs]; exact ZipIterator_construct_of_ne_nil _ heN
  have hiff : ∀ j, (∃ itj, ZipIterator.advance j ⟨cs.map std_begin⟩ = some itj ∧
      itj.equal ⟨cs.map std_end⟩ = true) ↔ ∀ c ∈ cs, c.elems.length = j := by
    intro j
    constructor
    · rintro ⟨itj, hadv, heq⟩ c hc
      by_contra hne
      have h1 := ZipIterator_advance_some j _ itj hadv
      rw [h1, not_equal_end_of_length_ne cs j c hc hne] at heq
      cases heq
    · intro hall
      refine ⟨_, ZipIterator_advance_eq j (cs.map std_begin) ?_, equal_end_of_lengths cs j hall⟩
      intro c hc
      obtain ⟨c0, hc0, rfl⟩ := List.mem_map.mp hc
      have := hall c0 hc0
      simp only [std_begin]
      omega
  have hnever : (∃ c ∈ cs, ∃ d ∈ cs, c.elems.length ≠ d.elems.length) →
      ∀ j, ¬ ∃ itj, ZipIterator.advance j ⟨cs.map std_begin⟩ = some itj ∧
        itj.equal ⟨cs.map std_end⟩ = true := by
    rintro ⟨c, hc, d, hd, hne⟩ j hex
    have hall := (hiff j).mp hex
    exact hne ((hall c hc).trans (hall d hd).symm)
  refine ⟨⟨cs.map std_begin⟩, ⟨cs.map std_end⟩, hbegin, hend, hiff k, ?_⟩
  intro hdiff
  refine ⟨hnever hdiff, ?_⟩
  intro fuel
  unfold Zip.for_each
  rw [hbegin, hend]
  show range_for fuel ⟨cs.map std_begin⟩ ⟨cs.map std_end⟩ = none
  cases hrun : range_for fuel ⟨cs.map std_begin⟩ ⟨cs.map std_end⟩ with
  | none => rfl
  | some out =>
    exact absurd (range_for_some_advance fuel _ _ out hrun) (hnever hdiff out.length)

/-- Witness for C15 on the three sequences of the demo `use_zip`, at `k = 5`. -/
theorem Zip_advance_equal_end_iff_witness :
    use_zip_zip.sequences use_zip_store = some use_zip_store ∧ use_zip_store ≠ [] ∧
    ∃ first last, use_zip_zip.begin use_zip_store = some first ∧
      use_zip_zip.end use_zip_store = some last ∧
      ((∃ itk, first.advance 5 = some itk ∧ itk.equal last = true) ↔
        ∀ c ∈ use_zip_store, c.elems.length = 5) ∧
      ((∃ c ∈ use_zip_store, ∃ d ∈ use_zip_store, c.elems.length ≠ d.elems.length) →
        (∀ j, ¬ ∃ itj, first.advance j = some itj ∧ itj.equal last = true) ∧
        ∀ fuel, use_zip_zip.for_each fuel use_zip_store = none) :=
  ⟨rfl, List.cons_ne_nil _ _,
    Zip_advance_equal_end_iff use_zip_store use_zip_zip use_zip_store rfl
      (List.cons_ne_nil _ _) 5⟩

/-- C16, as stated, fails for `Zip::end()` over a vector of three and a vector of one
element: its underlying cursors are at offsets 3 and 1. -/
theorem end_of_unequal_lengths_not_lockstep :
    ∃ last, Zip.end [test_v, std_vector [Value.bool true]]
        (Zip.construct [Arg.lvalue 0, Arg.lvalue 1]) = some last ∧
      last.iterator_tuple_.map Cursor.pos = [3, 1] ∧ ¬ last.lockstep := by
  refine ⟨⟨[std_end test_v, std_end (std_vector [Value.bool true])]⟩, rfl, rfl, ?_⟩
  intro h
  have h1 := h (std_end test_v) (List.mem_cons_self _ _)
    (std_end (std_vector [Value.bool true]))
    (List.mem_cons_of_mem _ (List.mem_cons_self _ _))
  revert h1
  decide

/-- C16 (amended): the combined cursor that `Zip::begin()` creates has all its underlying
cursors at one offset (zero); an increment or a decrement of a combined cursor whose
underlying cursors are at one offset leaves them at one offset; and `Zip::end()` puts the
cursor of each sequence at the length of that sequence, so its underlying cursors are at
one offset exactly when all the sequences have the same length. -/
theorem Zip_lockstep {α : Type} (store : Store α) (z : Zip α) (cs : List (Container α))
    (hcs : z.sequences store = some cs) (hN : cs ≠ []) :
    ∃ first last, z.begin store = some first ∧ z.end store = some last ∧
      first.lockstep ∧ first.iterator_tuple_.map Cursor.pos = cs.map (fun _ => 0) ∧
      last.iterator_tuple_.map Cursor.pos = cs.map (fun c => c.elems.length) ∧
      (last.lockstep ↔ ∀ c ∈ cs, ∀ d ∈ cs, c.elems.length = d.elems.length) ∧
      (∀ it next : ZipIterator α, it.lockstep → it.increment = some next → next.lockstep) ∧
      (∀ it before : ZipIterator α, it.lockstep → it.decrement = some before →
        before.lockstep) := by
  have hbN : cs.map std_begin ≠ [] := by
    intro h0; exact hN (List.map_eq_nil_iff.mp h0)
  have heN : cs.map std_end ≠ [] := by
    intro h0; exact hN (List.map_eq_nil_iff.mp h0)
  have hbegin : z.begin store = some ⟨cs.map std_begin⟩ := by
    unfold Zip.begin; rw [hcs]; exact ZipIterator_construct_of_ne_nil _ hbN
  have hend : z.end store = some ⟨cs.map std_end⟩ := by
    unfold Zip.end; rw [hcs]; exact ZipIterator_construct_of_ne_nil _ heN
  refine ⟨⟨cs.map std_begin⟩, ⟨cs.map std_end⟩, hbegin, hend, ?_, ?_, ?_, ?_, ?_, ?_⟩
  · intro a ha b hb
    obtain ⟨c, _, rfl⟩ := List.mem_map.mp ha
    obtain ⟨d, _, rfl⟩ := List.mem_map.mp hb
    rfl
  · rw [List.map_map]; rfl
  · rw [List.map_map]; rfl
  · constructor
    · intro h c hc d hd
      exact h (std_end c) (List.mem_map_of_mem _ hc) (std_end d) (List.mem_map_of_mem _ hd)
    · intro h a ha b hb
      obtain ⟨c, hc, rfl⟩ := List.mem_map.mp ha
      obtain ⟨d, hd, rfl⟩ := List.mem_map.mp hb
      exact h c hc d hd
  · intro it next hlock hinc
    rw [(ZipIterator_increment_some it next hinc).1]
    intro a ha b hb
    obtain ⟨c, hc, rfl⟩ := List.mem_map.mp ha
    obtain ⟨d, hd, rfl⟩ := List.mem_map.mp hb
    simp only [Cursor.shift, hlock c hc d hd]
  · intro it before hlock hdec
    rw [(ZipIterator_decrement_some it before hdec).1]
    intro a ha b hb
    obtain ⟨c, hc, rfl⟩ := List.mem_map.mp ha
    obtain ⟨d, hd, rfl⟩ := List.mem_map.mp hb
    simp only [Cursor.back, hlock c hc d hd]

/-- Witness for C16 (amended) on the three sequences of the demo `use_zip`. -/
theorem Zip_lockstep_witness :
    use_zip_zip.sequences use_zip_store = some use_zip_store ∧ use_zip_store ≠ [] ∧
    ∃ first last, use_zip_zip.begin use_zip_store = some first ∧
      use_zip_zip.end use_zip_store = some last ∧ first.lockstep ∧
      (last.lockstep ↔
        ∀ c ∈ use_zip_store, ∀ d ∈ use_zip_store, c.elems.length = d.elems.length) :=
  have h := Zip_lockstep use_zip_store use_zip_zip use_zip_store rfl (List.cons_ne_nil _ _)
  ⟨rfl, List.cons_ne_nil _ _,
    h.elim fun first h1 => h1.elim fun last h2 =>
      ⟨first, last, h2.1, h2.2.1, h2.2.2.1, h2.2.2.2.2.2.1⟩⟩

/-- C18, as stated, fails for the combined cursor at the start of a forward list of two
elements: its underlying cursor has a valid successor and the increment succeeds, but the
forward cursor has no decrement, so the increment cannot be undone. -/
theorem forward_cursor_has_no_decrement :
    (ZipIterator.construct [std_begin (std_forward_list [Value.int 1, Value.int 2])] =
      some ⟨[std_begin (std_forward_list [Value.int 1, Value.int 2])]⟩) ∧
    (∀ c ∈ [std_begin (std_forward_list [Value.int 1, Value.int 2])],
      c.increment.isSome = true) ∧
    (ZipIterator.mk [std_begin (std_forward_list [Value.int 1, Value.int 2])]).increment.bind
      ZipIterator.decrement = none ∧
    ¬ ∃ next,
      (ZipIterator.mk [std_begin (std_forward_list [Value.int 1, Value.int 2])]).increment =
        some next ∧
      next.decrement =
        some (ZipIterator.mk [std_begin (std_forward_list [Value.int 1, Value.int 2])]) := by
  refine ⟨rfl, by decide, rfl, ?_⟩
  rintro ⟨next, h1, h2⟩
  have h3 : (ZipIterator.mk
      [std_begin (std_forward_list [Value.int 1, Value.int 2])]).increment.bind
        ZipIterator.decrement = none := rfl
  rw [h1, Option.some_bind, h2] at h3
  cases h3

/-- C18 (amended): for a combined cursor `x` whose underlying cursors each have a valid
successor and are all bidirectional or random-access, a decrement after an increment gives
`x` back; for a combined cursor `y` whose underlying cursors each have a valid predecessor,
an increment after a decrement gives `y` back; either operation moves every component by
exactly one position and keeps the difference of the offsets of any two components. -/
theorem increment_decrement_inverse {α : Type} (x y : ZipIterator α)
    (hsucc : ∀ c ∈ x.iterator_tuple_, c.increment.isSome = true)
    (hbidir : ∀ c ∈ x.iterator_tuple_, c.category = bidirectional_iterator_tag ∨
      c.category = random_access_iterator_tag)
    (hvalid : ∀ c ∈ y.iterator_tuple_, c.valid)
    (hpred : ∀ c ∈ y.iterator_tuple_, c.decrement.isSome = true) :
    (∃ next, x.increment = some next ∧ next.decrement = some x ∧
      ∀ (i j : Nat) (a b : Cursor α), x.iterator_tuple_[i]? = some a →
        x.iterator_tuple_[j]? = some b →
        ∃ a1 b1, next.iterator_tuple_[i]? = some a1 ∧ next.iterator_tuple_[j]? = some b1 ∧
          a1.pos = a.pos + 1 ∧ b1.pos = b.pos + 1 ∧
          (a1.pos : Int) - (b1.pos : Int) = (a.pos : Int) - (b.pos : Int)) ∧
    (∃ before, y.decrement = some before ∧ before.increment = some y ∧
      ∀ (i j : Nat) (a b : Cursor α), y.iterator_tuple_[i]? = some a →
        y.iterator_tuple_[j]? = some b →
        ∃ a1 b1, before.iterator_tuple_[i]? = some a1 ∧
          before.iterator_tuple_[j]? = some b1 ∧
          a1.pos + 1 = a.pos ∧ b1.pos + 1 = b.pos ∧
          (a1.pos : Int) - (b1.pos : Int) = (a.pos : Int) - (b.pos : Int)) := by
  constructor
  · have hinc := ZipIterator_increment_eq x.iterator_tuple_
      (fun c hc => Cursor_increment_isSome c (hsucc c hc))
    have hdec := ZipIterator_decrement_eq (x.iterator_tuple_.map (Cursor.shift 1)) (by
      intro c hc
      obtain ⟨c0, hc0, rfl⟩ := List.mem_map.mp hc
      refine ⟨?_, by simp only [Cursor.shift]; omega⟩
      rcases hbidir c0 hc0 with h2 | h2
      · simp only [Cursor.shift, h2]; decide
      · simp only [Cursor.shift, h2]; decide)
    rw [map_back_map_shift] at hdec
    refine ⟨_, hinc, hdec, ?_⟩
    intro i j a b ha hb
    refine ⟨Cursor.shift 1 a, Cursor.shift 1 b, ?_, ?_, rfl, rfl, ?_⟩
    · simp only [List.getElem?_map, ha, Option.map_some']
    · simp only [List.getElem?_map, hb, Option.map_some']
    · simp only [Cursor.shift]
      omega
  · have hpos : ∀ c ∈ y.iterator_tuple_, 0 < c.pos :=
      fun c hc => (Cursor_decrement_isSome c (hpred c hc)).2
    have hdec := ZipIterator_decrement_eq y.iterator_tuple_
      (fun c hc => Cursor_decrement_isSome c (hpred c hc))
    have hinc := ZipIterator_increment_eq (y.iterator_tuple_.map Cursor.back) (by
      intro c hc
      obtain ⟨c0, hc0, rfl⟩ := List.mem_map.mp hc
      have h1 := hpos c0 hc0
      have h2 : c0.pos ≤ c0.seq.length := hvalid c0 hc0
      simp only [Cursor.back]
      omega)
    rw [map_shift_map_back _ hpos] at hinc
    refine ⟨_, hdec, hinc, ?_⟩
    intro i j a b ha hb
    have hai := hpos a (List.getElem?_mem ha)
    have hbi := hpos b (List.getElem?_mem hb)
    refine ⟨Cursor.back a, Cursor.back b, ?_, ?_, ?_, ?_, ?_⟩
    · simp only [List.getElem?_map, ha, Option.map_some']
    · simp only [List.getElem?_map, hb, Option.map_some']
    · simp only [Cursor.back]; omega
    · simp only [Cursor.back]; omega
    · simp only [Cursor.back]
      omega

/-- Witness for C18 (amended) on the start and the end cursors of the vector and the list of
the cursor tests. -/
theorem increment_decrement_inverse_witness :
    (∀ c ∈ (ZipIterator.mk [std_begin test_v, std_begin test_l]).iterator_tuple_,
      c.increment.isSome = true) ∧
    (∀ c ∈ (ZipIterator.mk [std_begin test_v, std_begin test_l]).iterator_tuple_,
      c.category = bidirectional_iterator_tag ∨ c.category = random_access_iterator_tag) ∧
    (∀ c ∈ (ZipIterator.mk [std_end test_v, std_end test_l]).iterator_tuple_, c.valid) ∧
    (∀ c ∈ (ZipIterator.mk [std_end test_v, std_end test_l]).iterator_tuple_,
      c.decrement.isSome = true) ∧
    (∃ next, (ZipIterator.mk [std_begin test_v, std_begin test_l]).increment = some next ∧
      next.decrement = some (ZipIterator.mk [std_begin test_v, std_begin test_l])) ∧
    (∃ before, (ZipIterator.mk [std_end test_v, std_end test_l]).decrement = some before ∧
      before.increment = some (ZipIterator.mk [std_end test_v, std_end test_l])) :=
  have hv : ∀ c ∈ (ZipIterator.mk [std_end test_v, std_end test_l]).iterator_tuple_,
      c.valid := by
    intro c hc
    simp only [List.mem_cons, List.mem_singleton, List.not_mem_nil, or_false] at hc
    rcases hc with rfl | rfl
    · exact Nat.le_refl _
    · exact Nat.le_refl _
  have h := increment_decrement_inverse
    (ZipIterator.mk [std_begin test_v, std_begin test_l])
    (ZipIterator.mk [std_end test_v, std_end test_l]) (by decide) (by decide) hv (by decide)
  ⟨by decide, by decide, hv, by decide,
    h.1.elim fun next h1 => ⟨next, h1.1, h1.2.1⟩,
    h.2.elim fun before h1 => ⟨before, h1.1, h1.2.1⟩⟩

/-! ## Results on the access to the sequences and on the paired range -/

/-- C12: for a `Zip` constructed from lvalue sequences, the assignment of `x` to element `j`
through member `i` of `containers()` sets that element of the caller's sequence `i` and
changes no other element of it, no other sequence of the store, and not the adapter; after
`Zip z(v, l)` with `v = [1,2,3]`, setting element 0 of member 0 to 5 makes `v[0] = 5`. -/
theorem assign_through_borrowed {α : Type} (store : Store α) (addrs : List Nat) (i j : Nat)
    (x : α) (a : Nat) (c : Container α) (ha : addrs[i]? = some a) (hc : store[a]? = some c)
    (hj : j < c.elems.length) :
    (∃ store1 c1,
      Zip.assign_through_containers store (Zip.construct (addrs.map Arg.lvalue)) i j x =
        some (store1, Zip.construct (addrs.map Arg.lvalue)) ∧
      store1[a]? = some c1 ∧ c1.category = c.category ∧
      c1.elems.length = c.elems.length ∧ c1.elems[j]? = some x ∧
      (∀ k, k ≠ j → c1.elems[k]? = c.elems[k]?) ∧
      (∀ b, b ≠ a → store1[b]? = store[b]?) ∧ store1.length = store.length) ∧
    (Zip.assign_through_containers test_ints (Zip.construct [Arg.lvalue 0, Arg.lvalue 1])
        0 0 (Value.int 5)).map (fun r => r.1.map Container.elems) =
      some [[Value.int 5, Value.int 2, Value.int 3],
        [Value.int 1, Value.int 2, Value.int 3]] := by
  refine ⟨?_, rfl⟩
  have halt : a < store.length := getElem?_some_lt store a c hc
  have hmember : (Zip.construct (addrs.map (Arg.lvalue : Nat → Arg α))).containers[i]? =
      some (Slot.borrowed a) := by
    rw [containers_of_lvalues, List.getElem?_map, ha]
    rfl
  have hassign : c.assign j x = some ⟨c.category, c.elems.set j x⟩ := by
    unfold Container.assign
    rw [if_pos hj]
  refine ⟨store.set a ⟨c.category, c.elems.set j x⟩, ⟨c.category, c.elems.set j x⟩,
    ?_, List.getElem?_set_self halt, rfl, List.length_set _ _ _,
    List.getElem?_set_self hj, ?_, ?_, List.length_set _ _ _⟩
  · unfold Zip.assign_through_containers
    rw [hmember]
    simp only [Slot.assign, hc, hassign]
  · intro k hk
    exact List.getElem?_set_ne (Ne.symm hk)
  · intro b hb
    exact List.getElem?_set_ne (Ne.symm hb)

/-- Witness for C12 on the vector and the list of the ownership tests: element 2 of the list
is set through member 1. -/
theorem assign_through_borrowed_witness :
    [0, 1][1]? = some 1 ∧ test_ints[1]? = some (std_list [Value.int 1, Value.int 2,
      Value.int 3]) ∧
    2 < (std_list [Value.int 1, Value.int 2, Value.int 3]).elems.length ∧
    (∃ store1 c1,
      Zip.assign_through_containers test_ints (Zip.construct ([0, 1].map Arg.lvalue)) 1 2
          (Value.int 7) = some (store1, Zip.construct ([0, 1].map Arg.lvalue)) ∧
      store1[1]? = some c1 ∧
      c1.category = (std_list [Value.int 1, Value.int 2, Value.int 3]).category ∧
      c1.elems.length = (std_list [Value.int 1, Value.int 2, Value.int 3]).elems.length ∧
      c1.elems[2]? = some (Value.int 7) ∧
      (∀ k, k ≠ 2 →
        c1.elems[k]? = (std_list [Value.int 1, Value.int 2, Value.int 3]).elems[k]?) ∧
      (∀ b, b ≠ 1 → store1[b]? = test_ints[b]?) ∧ store1.length = test_ints.length) :=
  ⟨rfl, rfl, by decide,
    (assign_through_borrowed test_ints [0, 1] 1 2 (Value.int 7) 1
      (std_list [Value.int 1, Value.int 2, Value.int 3]) rfl rfl (by decide)).1⟩

/-- C13, as stated, fails for `Zip z(std::move(v), std::move(l))` with `v = l = [1,2,3]`:
`containers()` returns the owned sequences by value, so after 5 is assigned to element 0
through member 0 of the returned tuple, the adapter still holds `[1,2,3]` and a traversal
from `begin()` still starts with `(1, 1)`. -/
theorem assign_through_owned_not_visible :
    (Zip.assign_through_containers [] (Zip.construct (test_ints.map Arg.rvalue)) 0 0
      (Value.int 5)).isSome = true ∧
    (∀ st z1,
      Zip.assign_through_containers [] (Zip.construct (test_ints.map Arg.rvalue)) 0 0
        (Value.int 5) = some (st, z1) →
      (z1.sequences st).map (fun cs => cs.map Container.elems) =
        some [[Value.int 1, Value.int 2, Value.int 3],
          [Value.int 1, Value.int 2, Value.int 3]] ∧
      (z1.begin st).bind ZipIterator.dereference = some [Value.int 1, Value.int 1] ∧
      (z1.begin st).bind ZipIterator.dereference ≠ some [Value.int 5, Value.int 1]) := by
  refine ⟨rfl, ?_⟩
  intro st z1 h
  have h0 : Zip.assign_through_containers [] (Zip.construct (test_ints.map Arg.rvalue)) 0 0
      (Value.int 5) = some ([], Zip.construct (test_ints.map Arg.rvalue)) := rfl
  rw [h0] at h
  have h1 := Option.some.inj h
  have hst : st = [] := (congrArg Prod.fst h1).symm
  have hz : z1 = Zip.construct (test_ints.map Arg.rvalue) := (congrArg Prod.snd h1).symm
  subst hst; subst hz
  refine ⟨rfl, rfl, ?_⟩
  intro h2
  have h3 : (Zip.begin [] (Zip.construct (test_ints.map Arg.rvalue))).bind
      ZipIterator.dereference = some [Value.int 1, Value.int 1] := rfl
  rw [h3] at h2
  revert h2
  decide

/-- C13 (amended): for a `Zip` constructed from rvalue sequences, `containers()` yields for
each owned member a copy of the adapter-owned sequence: the sequences returned have the
contents that were moved in, in argument order, and an assignment through a member of the
returned tuple leaves the store and the adapter as they were, so a later `containers()` call
and a later traversal from `begin()` give the contents that were moved in. -/
theorem assign_through_owned {α : Type} (store : Store α) (cs : List (Container α))
    (i j : Nat) (x : α) (c : Container α) (hi : cs[i]? = some c) (hj : j < c.elems.length) :
    (Zip.construct (cs.map Arg.rvalue)).containers = cs.map Slot.owned ∧
    (Zip.construct (cs.map Arg.rvalue)).sequences store = some cs ∧
    Zip.assign_through_containers store (Zip.construct (cs.map Arg.rvalue)) i j x =
      some (store, Zip.construct (cs.map Arg.rvalue)) ∧
    (∀ st z1,
      Zip.assign_through_containers store (Zip.construct (cs.map Arg.rvalue)) i j x =
        some (st, z1) →
      z1.containers = cs.map Slot.owned ∧ z1.sequences st = some cs ∧
      z1.begin st = (Zip.construct (cs.map Arg.rvalue)).begin store ∧
      ∀ fuel, z1.for_each fuel st = (Zip.construct (cs.map Arg.rvalue)).for_each fuel store) := by
  have hmember : (Zip.construct (cs.map Arg.rvalue)).containers[i]? =
      some (Slot.owned c) := by
    rw [containers_of_rvalues, List.getElem?_map, hi]
    rfl
  have hassign : c.assign j x = some ⟨c.category, c.elems.set j x⟩ := by
    unfold Container.assign
    rw [if_pos hj]
  have hrun : Zip.assign_through_containers store (Zip.construct (cs.map Arg.rvalue)) i j x =
      some (store, Zip.construct (cs.map Arg.rvalue)) := by
    unfold Zip.assign_through_containers
    rw [hmember]
    simp only [Slot.assign, hassign]
  refine ⟨containers_of_rvalues cs, sequences_of_rvalues store cs, hrun, ?_⟩
  intro st z1 h
  rw [hrun] at h
  have h1 := Option.some.inj h
  have hst : st = store := (congrArg Prod.fst h1).symm
  have hz : z1 = Zip.construct (cs.map Arg.rvalue) := (congrArg Prod.snd h1).symm
  subst hst; subst hz
  exact ⟨containers_of_rvalues cs, sequences_of_rvalues st cs, rfl, fun _ => rfl⟩

/-- Witness for C13 (amended) on the vector and the list of the ownership tests. -/
theorem assign_through_owned_witness :
    test_ints[0]? = some (std_vector [Value.int 1, Value.int 2, Value.int 3]) ∧
    0 < (std_vector [Value.int 1, Value.int 2, Value.int 3]).elems.length ∧
    (Zip.construct (test_ints.map Arg.rvalue)).containers = test_ints.map Slot.owned ∧
    (Zip.construct (test_ints.map Arg.rvalue)).sequences [] = some test_ints ∧
    Zip.assign_through_containers [] (Zip.construct (test_ints.map Arg.rvalue)) 0 0
      (Value.int 5) = some ([], Zip.construct (test_ints.map Arg.rvalue)) :=
  have h := assign_through_owned [] test_ints 0 0 (Value.int 5)
    (std_vector [Value.int 1, Value.int 2, Value.int 3]) rfl (by decide)
  ⟨rfl, by decide, h.1, h.2.1, h.2.2.1⟩

/-- C14, as stated, fails for a forward list of two elements: `PairedRange::end()` calls
`std::prev` on the end cursor of a forward list, which has no decrement, so `end()` has no
defined result and the traversal yields nothing, not the one pair `(1, 2)`. -/
theorem paired_range_of_forward_list :
    (PairedRange.begin [] (PairedRange.construct
      (Arg.rvalue (std_forward_list [Value.int 1, Value.int 2])))).isSome = true ∧
    PairedRange.end [] (PairedRange.construct
      (Arg.rvalue (std_forward_list [Value.int 1, Value.int 2]))) = none ∧
    (∀ fuel, PairedRange.for_each fuel [] (PairedRange.construct
      (Arg.rvalue (std_forward_list [Value.int 1, Value.int 2]))) = none) ∧
    ¬ ∃ fuel, PairedRange.for_each fuel [] (PairedRange.construct
      (Arg.rvalue (std_forward_list [Value.int 1, Value.int 2]))) =
        some [[Value.int 1, Value.int 2]] := by
  have hnone : ∀ fuel, PairedRange.for_each fuel [] (PairedRange.construct
      (Arg.rvalue (std_forward_list [Value.int 1, Value.int 2]))) = none :=
    fun _ => rfl
  refine ⟨rfl, rfl, hnone, ?_⟩
  rintro ⟨fuel, h⟩
  rw [hnone fuel] at h
  cases h

/-- C14 (amended): for every sequence of length `n >= 1` whose cursors are bidirectional or
random-access, the range-based `for` over its `PairedRange`, given at least `n` units of
fuel, yields exactly the `n - 1` pairs `(x_i, x_(i+1))` for `i = 0 .. n - 2`, in order (none
when `n = 1`); and after `k` increments of `begin()`, for every `k <= n - 1`, the second
underlying cursor is exactly one position after the first. -/
theorem PairedRange_for_each_yields_adjacent {α : Type} (store : Store α)
    (p : PairedRange α) (c : Container α) (hc : p.container_.container store = some c)
    (hcat : c.category = bidirectional_iterator_tag ∨
      c.category = random_access_iterator_tag)
    (hn : 1 ≤ c.elems.length) (fuel : Nat) (hfuel : c.elems.length ≤ fuel) :
    ∃ first last out, p.begin store = some first ∧ p.end store = some last ∧
      p.for_each fuel store = some out ∧ out.length = c.elems.length - 1 ∧
      (∀ i, i + 1 < c.elems.length → ∃ a b, c.elems[i]? = some a ∧
        c.elems[i + 1]? = some b ∧ out[i]? = some [a, b]) ∧
      (∀ k, k + 1 ≤ c.elems.length → ∃ itk a b, first.advance k = some itk ∧
        itk.iterator_tuple_ = [a, b] ∧ a.pos = k ∧ b.pos = a.pos + 1 ∧
        a.seq = c.elems ∧ b.seq = c.elems) ∧
      last.iterator_tuple_.map Cursor.pos = [c.elems.length - 1, c.elems.length] := by
  have hrank : 2 ≤ tag_to_rank c.category := by
    rcases hcat with h | h
    · rw [h]; decide
    · rw [h]; decide
  have hbegin : p.begin store = some (paired_at c 0) := by
    unfold PairedRange.begin
    rw [hc]
    have hnext : std_next (std_begin c) = some ⟨c.category, c.elems, 1⟩ := by
      unfold std_next Cursor.increment std_begin
      rw [if_pos (by show 0 < c.elems.length; omega)]
    simp only [hnext]
    exact ZipIterator_construct_of_ne_nil _ (List.cons_ne_nil _ _)
  have hend : p.end store = some (paired_at c (c.elems.length - 1)) := by
    unfold PairedRange.end
    rw [hc]
    have hprev : std_prev (std_end c) = some ⟨c.category, c.elems, c.elems.length - 1⟩ := by
      unfold std_prev Cursor.decrement std_end
      rw [if_pos ⟨hrank, by show 0 < c.elems.length; omega⟩]
    simp only [hprev]
    rw [ZipIterator_construct_of_ne_nil _ (List.cons_ne_nil _ _)]
    unfold paired_at std_end
    rw [Nat.sub_add_cancel hn]
  obtain ⟨out, hout, hlenout, hrows⟩ :=
    paired_range_for_from c (c.elems.length - 1) 0 fuel (by omega) (by omega)
  refine ⟨paired_at c 0, paired_at c (c.elems.length - 1), out, hbegin, hend, ?_, hlenout,
    ?_, ?_, ?_⟩
  · unfold PairedRange.for_each
    rw [hbegin, hend]
    exact hout
  · intro i hi
    obtain ⟨a, b, ha, hb, hr⟩ := hrows i (by omega)
    rw [Nat.zero_add] at ha hb
    exact ⟨a, b, ha, hb, hr⟩
  · intro k hk
    refine ⟨paired_at c (0 + k), ⟨c.category, c.elems, 0 + k⟩,
      ⟨c.category, c.elems, 0 + k + 1⟩, paired_advance c k 0 (by omega), rfl,
      Nat.zero_add k, rfl, rfl, rfl⟩
  · simp only [paired_at, List.map_cons, List.map_nil, Nat.sub_add_cancel hn]

/-- Witness for C14 (amended) on the vector of eight elements of the demo `temp`. -/
theorem PairedRange_for_each_yields_adjacent_witness :
    (PairedRange.construct (Arg.lvalue 0)).container_.container [temp_v] = some temp_v ∧
    (temp_v.category = bidirectional_iterator_tag ∨
      temp_v.category = random_access_iterator_tag) ∧
    1 ≤ temp_v.elems.length ∧ temp_v.elems.length ≤ 8 ∧
    ∃ first last out,
      (PairedRange.construct (Arg.lvalue 0)).begin [temp_v] = some first ∧
      (PairedRange.construct (Arg.lvalue 0)).end [temp_v] = some last ∧
      (PairedRange.construct (Arg.lvalue 0)).for_each 8 [temp_v] = some out ∧
      out.length = temp_v.elems.length - 1 ∧
      (∀ i, i + 1 < temp_v.elems.length → ∃ a b, temp_v.elems[i]? = some a ∧
        temp_v.elems[i + 1]? = some b ∧ out[i]? = some [a, b]) ∧
      (∀ k, k + 1 ≤ temp_v.elems.length → ∃ itk a b, first.advance k = some itk ∧
        itk.iterator_tuple_ = [a, b] ∧ a.pos = k ∧ b.pos = a.pos + 1 ∧
        a.seq = temp_v.elems ∧ b.seq = temp_v.elems) ∧
      last.iterator_tuple_.map Cursor.pos =
        [temp_v.elems.length - 1, temp_v.elems.length] :=
  ⟨rfl, Or.inr rfl, by decide, by decide,
    PairedRange_for_each_yields_adjacent [temp_v] (PairedRange.construct (Arg.lvalue 0))
      temp_v rfl (Or.inr rfl) (by decide) 8 (by decide)⟩

end ZipPoc
